import Mathlib

/-!
Verification of the `vfs` library: a shallow embedding of the path model,
the in-memory tree backend (`MemNode`), the `subtree` wrapper, and the
object-store (`S3FileSystem`) backend, together with theorems settling the
specification's claims about them.

Conventions of the embedding:
* Strings and paths are Lean `String`s; byte slices are `List Nat`.
* Go's `time.Time` is an abstract tick `Nat`, threaded into the operations
  that stamp a modification time.
* Fallible operations return `Except PathError _`; a Go `nil`-pointer
  dereference (a runtime panic) is modelled by an explicit result
  constructor, never by an error value.
* String utilities from Go's `path`, `path/filepath` and `strings`
  packages are reimplemented on `List Char` so that every definition is
  executable and kernel-reducible.
-/

namespace Vfs

/-! ## Go `strings` / `path` utilities -/

/-- `strings.Split(s, "/")`: split on every `/`; always returns at least
one (possibly empty) field. -/
def splitSlashChars : List Char → List Char → List String
  | [], cur => [String.mk cur.reverse]
  | c :: cs, cur =>
    if c = '/' then String.mk cur.reverse :: splitSlashChars cs []
    else splitSlashChars cs (c :: cur)

def splitSlash (s : String) : List String :=
  splitSlashChars s.data []

/-- `strings.HasPrefix` / `startsWith`, via `List.isPrefixOf` on the data. -/
def hasPrefix (s pre : String) : Bool :=
  pre.data.isPrefixOf s.data

/-- `strings.HasSuffix`. -/
def hasSuffix (s suf : String) : Bool :=
  suf.data.isSuffixOf s.data

/-- `strings.TrimPrefix(s, pre)`: drop `pre` when it is a prefix, else `s`. -/
def trimPrefix (s pre : String) : String :=
  if hasPrefix s pre then s.drop pre.length else s

/-- `strings.TrimSuffix(s, suf)`. -/
def trimSuffix (s suf : String) : String :=
  if hasSuffix s suf then s.dropRight suf.length else s

/-- `strings.Replace(s, pat, "", 1)`: delete the first occurrence of `pat`.
An empty pattern leaves the string unchanged (Go inserts the empty
replacement). -/
def removeFirstOcc (pat : List Char) : List Char → List Char
  | [] => []
  | c :: cs =>
    if pat.isPrefixOf (c :: cs) then (c :: cs).drop pat.length
    else c :: removeFirstOcc pat cs

def replaceFirstWithEmpty (s pat : String) : String :=
  if pat = "" then s else String.mk (removeFirstOcc pat.data s.data)

/-- The component-stack core of `path.Clean`: skip empty and `.`
components, a `..` pops the previous component (or is dropped at the root
of a rooted path, or kept for a relative path).  `acc` holds the output
components in reverse. -/
def cleanCore (rooted : Bool) : List String → List String → List String
  | [], acc => acc.reverse
  | p :: ps, [] =>
    if p = "" ∨ p = "." then cleanCore rooted ps []
    else if p = ".." then
      if rooted then cleanCore rooted ps [] else cleanCore rooted ps [".."]
    else cleanCore rooted ps [p]
  | p :: ps, a :: rest =>
    if p = "" ∨ p = "." then cleanCore rooted ps (a :: rest)
    else if p = ".." then
      if a = ".." then cleanCore rooted ps (".." :: a :: rest)
      else cleanCore rooted ps rest
    else cleanCore rooted ps (p :: a :: rest)

/-- `strings.Join(elems, "/")`. -/
def joinSlash : List String → String
  | [] => ""
  | [c] => c
  | c :: cs => c ++ "/" ++ joinSlash cs

/-- `path.Clean`: returns the shortest equivalent path (`.` for the empty
path, a leading `/` preserved, no `.`/`..`/empty components except leading
`..`s of a relative path). -/
def pathClean (p : String) : String :=
  if p = "" then "."
  else
    let rooted := hasPrefix p "/"
    let comps := cleanCore rooted (splitSlash p) []
    let joined := joinSlash comps
    if rooted then "/" ++ joined
    else if joined = "" then "." else joined

/-- `path.Base` on reversed character lists: strip trailing slashes, then
take everything after the last slash; all-slash input is `/`, empty input
is `.`. -/
def baseCharsRev (r : List Char) : List Char :=
  if r.dropWhile (· = '/') = [] then ['/']
  else (r.dropWhile (· = '/')).takeWhile (· ≠ '/')

def pathBase (p : String) : String :=
  if p = "" then "." else String.mk (baseCharsRev p.data.reverse).reverse

/-- `path.Dir`: everything up to (and including) the final slash, cleaned.
(`path.Split` keeps the trailing slash; `Clean` then removes it.) -/
def pathDir (p : String) : String :=
  pathClean (String.mk (p.data.reverse.dropWhile (· ≠ '/')).reverse)

/-- `filepath.Join(a, b)` on a slash-separated system: empty elements are
skipped and the joined string is cleaned; all-empty input gives `""`. -/
def filepathJoin (a b : String) : String :=
  if a = "" ∧ b = "" then ""
  else if a = "" then pathClean b
  else if b = "" then pathClean a
  else pathClean (a ++ "/" ++ b)

/-! ## Byte-wise string ordering (Go `<` on strings)

Go's `sort` interfaces for file infos compare `Name()` with the built-in
string `<`, which is lexicographic on bytes.  We model it lexicographically
on characters (identical on the ASCII names involved), with an executable
`Bool`-valued comparison. -/

/-- Lexicographic strict order on character lists. -/
def lexLt : List Char → List Char → Bool
  | [], [] => false
  | [], _ :: _ => true
  | _ :: _, [] => false
  | a :: as, b :: bs =>
    if a.toNat < b.toNat then true
    else if b.toNat < a.toNat then false
    else lexLt as bs

/-- Go `a < b` on strings. -/
def strLt (a b : String) : Bool := lexLt a.data b.data

/-! ## Error model

`os.PathError` carries the failing operation, the path, and an underlying
cause.  The causes appearing in this repository are the not-found sentinel
`vfs.ErrNoFile`, `os.ErrClosed`, and ad-hoc `fmt.Errorf` messages. -/

inductive ErrCause where
  /-- `vfs.ErrNoFile = errors.New("No such file")`: the sentinel cause. -/
  | noFile
  /-- `os.ErrClosed`: handle reused after close. -/
  | errClosed
  /-- `fmt.Errorf(...)`: an ad-hoc error with the formatted message. -/
  | errorf (msg : String)
deriving DecidableEq, Repr

structure PathError where
  op : String
  path : String
  err : ErrCause
deriving DecidableEq, Repr

instance {ε α : Type} [DecidableEq ε] [DecidableEq α] : DecidableEq (Except ε α)
  | .error a, .error b => decidable_of_iff (a = b) (by simp)
  | .error _, .ok _ => isFalse (by simp)
  | .ok _, .error _ => isFalse (by simp)
  | .ok a, .ok b => decidable_of_iff (a = b) (by simp)

/-! ## Directory entries and their ordering -/

/-- The observable part of an `os.FileInfo` (`MemNode` and `s3FileInfo`
both implement it): name, byte size, directory flag, modification time. -/
structure FileInfo where
  name : String
  size : Nat
  isDir : Bool
  modTime : Nat
deriving DecidableEq, Repr

/-- `fis[i].Name() < fis[j].Name()`: the `Less` used by both
`fileInfoSorter` (vfs.go) and `s3FileInfos` (the S3 backend). -/
def infoLt (a b : FileInfo) : Bool := strLt a.name b.name

/-- One insertion step of the sort: `x` goes after every element strictly
below it. -/
def insertInfo (x : FileInfo) : List FileInfo → List FileInfo
  | [] => [x]
  | y :: ys => if infoLt y x then y :: insertInfo x ys else x :: y :: ys

/-- `sortFileInfos` / `sort.Sort(...)`: sorts entries so that they are
ordered by `Name()` under the Go string `<`.  `sort.Sort` is an
unspecified comparison sort; insertion sort is an executable model with
the same ordering contract. -/
def sortFileInfos : List FileInfo → List FileInfo
  | [] => []
  | x :: xs => insertInfo x (sortFileInfos xs)

/-! ## The in-memory tree backend (`MemNode`) -/

/-- `type MemNode struct { name string; isDir bool; modTime time.Time;
content []byte; children []*MemNode }`. -/
inductive MemNode where
  | mk (name : String) (isDir : Bool) (modTime : Nat)
       (content : List Nat) (children : List MemNode)

mutual

/-- Structural equality test for trees (deriving does not yet handle the
nested occurrence in `List MemNode`). -/
def MemNode.beq : MemNode → MemNode → Bool
  | .mk n1 d1 m1 c1 ch1, .mk n2 d2 m2 c2 ch2 =>
    n1 == n2 && d1 == d2 && m1 == m2 && c1 == c2 && beqChildren ch1 ch2

def beqChildren : List MemNode → List MemNode → Bool
  | [], [] => true
  | a :: as, b :: bs => MemNode.beq a b && beqChildren as bs
  | _, _ => false

end

mutual

theorem MemNode.beq_iff : ∀ a b : MemNode, MemNode.beq a b = true ↔ a = b
  | .mk n1 d1 m1 c1 ch1, .mk n2 d2 m2 c2 ch2 => by
    simp only [MemNode.beq, Bool.and_eq_true, beq_iff_eq, MemNode.mk.injEq,
      beqChildren_iff ch1 ch2, and_assoc]

theorem beqChildren_iff : ∀ as bs : List MemNode, beqChildren as bs = true ↔ as = bs
  | [], [] => by simp [beqChildren]
  | [], _ :: _ => by simp [beqChildren]
  | _ :: _, [] => by simp [beqChildren]
  | a :: as, b :: bs => by
    simp only [beqChildren, Bool.and_eq_true, MemNode.beq_iff a b,
      beqChildren_iff as bs, List.cons.injEq]

end

instance : DecidableEq MemNode := fun a b =>
  decidable_of_iff (MemNode.beq a b = true) (MemNode.beq_iff a b)

def MemNode.name : MemNode → String
  | .mk n _ _ _ _ => n

def MemNode.isDir : MemNode → Bool
  | .mk _ d _ _ _ => d

def MemNode.modTime : MemNode → Nat
  | .mk _ _ m _ _ => m

def MemNode.content : MemNode → List Nat
  | .mk _ _ _ c _ => c

def MemNode.children : MemNode → List MemNode
  | .mk _ _ _ _ cs => cs

/-- Reassign the `children` field (the only field the backend mutates in
place through a parent pointer). -/
def MemNode.withChildren : MemNode → List MemNode → MemNode
  | .mk n d m c _, cs => .mk n d m c cs

/-- `vfs.Dir(name, children...)`: a directory literal (`time.Now()` is the
abstract tick `now`). -/
def Dir (name : String) (children : List MemNode) (now : Nat) : MemNode :=
  .mk name true now [] children

/-- `vfs.File(name, content)`: a file literal. -/
def File (name : String) (content : List Nat) (now : Nat) : MemNode :=
  .mk name false now content []

/-- `vfs.Mem(children...) = Dir("", children...)`: the fabricated root. -/
def Mem (children : List MemNode) (now : Nat) : MemNode :=
  Dir "" children now

/-- `MemNode.Name/Size/IsDir/ModTime`: a `MemNode` is its own
`os.FileInfo`. -/
def MemNode.fileInfo (mn : MemNode) : FileInfo :=
  ⟨mn.name, mn.content.length, mn.isDir, mn.modTime⟩

/-- `childByName`: first child whose name matches exactly
(case-sensitive). -/
def MemNode.childByName (mn : MemNode) (name : String) : Option MemNode :=
  mn.children.find? (fun c => c.name = name)

/-- `child(parts)`: walk down by exact child-name match; empty part list
(or the single empty part produced by the root path) resolves to the node
itself. -/
def MemNode.child : MemNode → List String → Option MemNode
  | mn, [] => some mn
  | mn, p :: rest =>
    if rest = [] ∧ p = "" then some mn
    else
      match mn.childByName p with
      | none => none
      | some c => c.child rest

/-- `childByPath`: `Clean("/" + path)[1:]` split on `/`, then `child`. -/
def pathParts (path : String) : List String :=
  splitSlash ((pathClean ("/" ++ path)).drop 1)

def MemNode.childByPath (mn : MemNode) (path : String) : Option MemNode :=
  mn.child (pathParts path)

/-- `parentNode(path) = childByPath(Dir(Clean("/" + path)))`. -/
def parentParts (path : String) : List String :=
  pathParts (pathDir (pathClean ("/" ++ path)))

def MemNode.parentNode (mn : MemNode) (path : String) : Option MemNode :=
  mn.child (parentParts path)

/-- Split a child list around the first node with the given name. -/
def splitAtName (p : String) :
    List MemNode → Option (List MemNode × MemNode × List MemNode)
  | [] => none
  | c :: cs =>
    if c.name = p then some ([], c, cs)
    else
      match splitAtName p cs with
      | none => none
      | some (pre, d, post) => some (c :: pre, d, post)

/-- Mutation-through-a-parent-pointer, functionally: walk to the node at
`parts` (first-match, like `child`), apply `f` to it, and rebuild the
spine.  Returns the node found (pre-mutation) and the updated tree; `none`
when the path does not resolve.  This models the Go pattern of resolving a
`*MemNode` and assigning to its `children` field. -/
def MemNode.updAt (f : MemNode → MemNode) : MemNode → List String → Option (MemNode × MemNode)
  | mn, [] => some (mn, f mn)
  | mn, p :: rest =>
    if rest = [] ∧ p = "" then some (mn, f mn)
    else
      match splitAtName p mn.children with
      | none => none
      | some (pre, c, post) =>
        match c.updAt f rest with
        | none => none
        | some (d, c') => some (d, mn.withChildren (pre ++ c' :: post))

/-! ## `MemNode` operations -/

/-- `MemNode.Open`: clean the path, resolve; missing gives
`&os.PathError{"open", path, ErrNoFile}`, otherwise the result is a
reader over the file's byte content (`child.Content()`).  (Value-level
view; the sharing of the backing array is modelled separately, see the
heap model below.) -/
def MemNode.Open (mn : MemNode) (path : String) : Except PathError (List Nat) :=
  let path := pathClean ("/" ++ path)
  match mn.childByPath path with
  | none => .error ⟨"open", path, .noFile⟩
  | some child => .ok child.content

/-- `MemNode.Stat`: clean, resolve; missing gives
`&os.PathError{"stat", path, ErrNoFile}`. -/
def MemNode.Stat (mn : MemNode) (path : String) : Except PathError FileInfo :=
  let path := pathClean ("/" ++ path)
  match mn.childByPath path with
  | none => .error ⟨"stat", path, .noFile⟩
  | some child => .ok child.fileInfo

/-- `MemNode.Readdir`: resolve the (raw) path; a missing node gives
`&os.PathError{"open", path, ErrNoFile}` with the uncleaned path;
otherwise the node's children, sorted by name.  (No directory check: a
non-directory node simply has no children.) -/
def MemNode.Readdir (mn : MemNode) (path : String) : Except PathError (List FileInfo) :=
  match mn.childByPath path with
  | none => .error ⟨"open", path, .noFile⟩
  | some node => .ok (sortFileInfos (node.children.map MemNode.fileInfo))

/-- `MemNode.Remove`: clean; resolve the parent (error `"No parent
directory <path>"` if missing or not a directory); filter out every child
named `Base(path)`; if nothing was filtered the file did not exist
(`ErrNoFile`), otherwise commit the filtered child list. -/
def MemNode.Remove (mn : MemNode) (path : String) : Except PathError MemNode :=
  let path := pathClean ("/" ++ path)
  let base := pathBase path
  match mn.updAt (fun d => d.withChildren (d.children.filter (fun c => ¬ c.name = base)))
      (parentParts path) with
  | none => .error ⟨"remove", path, .errorf ("No parent directory " ++ path)⟩
  | some (dir, t') =>
    if ¬ dir.isDir then
      .error ⟨"remove", path, .errorf ("No parent directory " ++ path)⟩
    else if (dir.children.filter (fun c => ¬ c.name = base)).length
        = dir.children.length then
      .error ⟨"remove", path, .noFile⟩
    else .ok t'

/-- `memFile`: the write handle returned by `Create`.  The Go struct holds
a pointer to the parent directory node; the model records the parent's
resolved component path (valid while no other operation moves it, which is
the discipline of the claims below).  `path` is `pathpkg.Base(path)`, as
assigned in `MemNode.Create`. -/
structure MemFile where
  closed : Bool
  content : List Nat
  dirParts : List String
  path : String
deriving Repr, DecidableEq

/-- `memFile.Write`: buffered append; fails with `os.ErrClosed` after
close. -/
def MemFile.Write (mf : MemFile) (p : List Nat) : Except ErrCause MemFile :=
  if mf.closed then .error .errClosed
  else .ok { mf with content := mf.content ++ p }

/-- `memFile.Close`: fails with `os.ErrClosed` when already closed;
otherwise appends a fresh file node named `Base(mf.path)` with the
buffered content to the recorded parent directory and marks the handle
closed.  If the parent path no longer resolves, the Go code appends to a
node that is no longer reachable from the root, leaving the visible tree
unchanged. -/
def MemFile.Close (mf : MemFile) (t : MemNode) (now : Nat) :
    Except ErrCause (MemFile × MemNode) :=
  if mf.closed then .error .errClosed
  else
    let node : MemNode := .mk (pathBase mf.path) false now mf.content []
    let t' :=
      match t.updAt (fun d => d.withChildren (d.children ++ [node])) mf.dirParts with
      | some (_, t') => t'
      | none => t
    .ok ({ mf with closed := true }, t')

/-- `MemNode.Create`: clean; the parent must resolve to a directory
(else `"No parent directory <parent>"`); any existing file at the path is
removed immediately (an `ErrNoFile` from that removal is absorbed); the
returned handle is not yet visible in the tree. -/
def MemNode.Create (mn : MemNode) (path : String) :
    Except PathError (MemNode × MemFile) :=
  let path := pathClean ("/" ++ path)
  let parent := pathDir path
  match mn.childByPath parent with
  | none => .error ⟨"create", path, .errorf ("No parent directory " ++ parent)⟩
  | some dir =>
    if ¬ dir.isDir then
      .error ⟨"create", path, .errorf ("No parent directory " ++ parent)⟩
    else
      let handle : MemFile := ⟨false, [], pathParts parent, pathBase path⟩
      match mn.Remove path with
      | .error e => if e.err = .noFile then .ok (mn, handle) else .error e
      | .ok t' => .ok (t', handle)

/-- `Create` followed by writing `data` and closing: the composite used by
`MemNode.Copy` (`io.Copy` drains the source into the buffer; the fresh
handle's `Write` and `Close` cannot fail). -/
def MemNode.createClose (t : MemNode) (path : String) (data : List Nat) (now : Nat) :
    Except PathError MemNode :=
  match t.Create path with
  | .error e => .error e
  | .ok (t1, mf) =>
    match mf.Write data with
    | .error c => .error ⟨"write", path, c⟩
    | .ok mf1 =>
      match mf1.Close t1 now with
      | .error c => .error ⟨"close", path, c⟩
      | .ok (_, t2) => .ok t2

/-- `MemNode.Copy(destPath, source)`: `Create`, `io.Copy`, `Close`. -/
def MemNode.Copy (t : MemNode) (destPath : String) (source : List Nat) (now : Nat) :
    Except PathError MemNode :=
  t.createClose destPath source now

/-- `MemNode.Mkdir`: `name := Base(path)` (raw), parent :=
`parentNode(path)`; missing or non-directory parent gives `"No parent
directory for <path>"` (raw path); otherwise a fresh empty directory node
is appended. -/
def MemNode.Mkdir (mn : MemNode) (path : String) (now : Nat) : Except PathError MemNode :=
  let name := pathBase path
  match mn.updAt (fun d => d.withChildren (d.children ++ [Dir name [] now]))
      (parentParts path) with
  | none => .error ⟨"mkdir", path, .errorf ("No parent directory for " ++ path)⟩
  | some (dir, t') =>
    if ¬ dir.isDir then
      .error ⟨"mkdir", path, .errorf ("No parent directory for " ++ path)⟩
    else .ok t'

/-- Remove the first child with the given name
(`append(children[:i], children[i+1:]...)`). -/
def removeFirstNamed (name : String) : List MemNode → List MemNode
  | [] => []
  | c :: cs => if c.name = name then cs else c :: removeFirstNamed name cs

/-- Result of `MemNode.Move`: Go can dereference a nil `*MemNode`, which
is a runtime panic, not an error return. -/
inductive MoveResult where
  | panics
  | error (e : PathError)
  | ok (t : MemNode)
deriving DecidableEq

/-- `MemNode.Move(srcPath, destPath)`:
`src := parentNode(srcPath)` and `dest := parentNode(destPath)` are
resolved first (no nil checks).  Iterating `src.children` dereferences
`src`, so an unresolved source parent panics.  The first child named
`Base(srcPath)` is detached (missing gives `{"move", srcPath, ErrNoFile}`
before `dest` is touched); then `dest.children = append(...)`
dereferences `dest`, so an unresolved destination parent panics.  When the
destination parent lies inside the just-detached subtree the Go code
appends to a node no longer reachable from the root; the visible tree is
then the one after detachment. -/
def MemNode.Move (mn : MemNode) (srcPath destPath : String) : MoveResult :=
  let base := pathBase srcPath
  match mn.updAt (fun d => d.withChildren (removeFirstNamed base d.children))
      (parentParts srcPath) with
  | none => .panics
  | some (src, t1) =>
    match src.children.find? (fun c => c.name = base) with
    | none => .error ⟨"move", srcPath, .noFile⟩
    | some file =>
      if (mn.child (parentParts destPath)).isSome then
        match t1.updAt (fun d => d.withChildren (d.children ++ [file]))
            (parentParts destPath) with
        | some (_, t2) => .ok t2
        | none => .ok t1
      else .panics

/-! ## The unique-names invariant -/

/-- No two entries of a single child list share a name. -/
def distinctNames : List String → Bool
  | [] => true
  | n :: ns => (¬ ns.contains n) && distinctNames ns

mutual

/-- Every directory's children have pairwise distinct names, recursively. -/
def MemNode.uniqueNames : MemNode → Bool
  | .mk _ _ _ _ children =>
    distinctNames (children.map MemNode.name) && allUnique children

def allUnique : List MemNode → Bool
  | [] => true
  | c :: cs => c.uniqueNames && allUnique cs

end

/-! ## The `subtree` wrapper (instantiated over the memory backend)

`vfs.go`'s `subtree` holds any `FileSystem` plus a root; here it is
instantiated with the `MemNode` backend, whose errors are all
`*os.PathError` (the only error type `unmapError` rewrites). -/

structure SubtreeMem where
  tree : MemNode
  root : String

/-- `subtree.mapPath(path) = filepath.Join(s.root, path.Clean(path))`. -/
def SubtreeMem.mapPath (s : SubtreeMem) (path : String) : String :=
  filepathJoin s.root (pathClean path)

/-- `subtree.unmapPath(path) = strings.TrimPrefix(path, s.root)`. -/
def SubtreeMem.unmapPath (s : SubtreeMem) (path : String) : String :=
  trimPrefix path s.root

/-- `subtree.unmapError`: rewrite the path field of an `*os.PathError`,
preserving operation and cause. -/
def SubtreeMem.unmapError (s : SubtreeMem) (e : PathError) : PathError :=
  ⟨e.op, s.unmapPath e.path, e.err⟩

def SubtreeMem.mapExcept {α : Type} (s : SubtreeMem) :
    Except PathError α → Except PathError α
  | .error e => .error (s.unmapError e)
  | .ok a => .ok a

/-- `subtree.Open`: delegate at the mapped path, unmap the error. -/
def SubtreeMem.Open (s : SubtreeMem) (name : String) : Except PathError (List Nat) :=
  s.mapExcept (s.tree.Open (s.mapPath name))

/-- `subtree.Create`: delegate, unmap the error (the handle passes
through unchanged). -/
def SubtreeMem.Create (s : SubtreeMem) (name : String) :
    Except PathError (MemNode × MemFile) :=
  s.mapExcept (s.tree.Create (s.mapPath name))

/-- `subtree.Copy`: delegates at the mapped path; the error is returned
as-is (no `unmapError` in the source). -/
def SubtreeMem.Copy (s : SubtreeMem) (destPath : String) (source : List Nat) (now : Nat) :
    Except PathError MemNode :=
  s.tree.Copy (s.mapPath destPath) source now

/-- `subtree.Move`: delegates at the mapped paths; the error is returned
as-is (no `unmapError` in the source). -/
def SubtreeMem.Move (s : SubtreeMem) (srcPath destPath : String) : MoveResult :=
  s.tree.Move (s.mapPath srcPath) (s.mapPath destPath)

/-- `subtree.Remove`: delegate, unmap the error. -/
def SubtreeMem.Remove (s : SubtreeMem) (path : String) : Except PathError MemNode :=
  s.mapExcept (s.tree.Remove (s.mapPath path))

/-- `subtree.Stat`: delegate, unmap the error. -/
def SubtreeMem.Stat (s : SubtreeMem) (path : String) : Except PathError FileInfo :=
  s.mapExcept (s.tree.Stat (s.mapPath path))

/-- `subtree.Readdir`: delegate, unmap the error. -/
def SubtreeMem.Readdir (s : SubtreeMem) (path : String) :
    Except PathError (List FileInfo) :=
  s.mapExcept (s.tree.Readdir (s.mapPath path))

/-- `subtree.Mkdir`: delegate, unmap the error. -/
def SubtreeMem.Mkdir (s : SubtreeMem) (path : String) (now : Nat) : Except PathError MemNode :=
  s.mapExcept (s.tree.Mkdir (s.mapPath path) now)

/-! ## The object-store backend (`S3FileSystem`)

The external client is specified as `list(prefix, delimiter) → paginated
entries`; an operation issues one listing request and receives some list
of pages, each carrying common prefixes (groups) and objects.  `Stat` and
`Readdir` are modelled as functions of the pages returned for their
single request. -/

structure S3Object where
  key : String
  size : Nat
  lastModified : Nat
deriving DecidableEq, Repr

structure S3Page where
  commonPrefixes : List String
  contents : List S3Object
deriving DecidableEq, Repr

/-- `keyPath(path) = strings.TrimPrefix(path.Clean("/"+path), "/")`. -/
def keyPath (path : String) : String :=
  trimPrefix (pathClean ("/" ++ path)) "/"

/-- `s3Err(op, key, err)` (for a non-nil cause): path is
`strings.TrimSuffix("/"+key, "/")`. -/
def s3Err (op key : String) (err : ErrCause) : PathError :=
  ⟨op, trimSuffix ("/" ++ key) "/", err⟩

/-- `S3FileSystem.Stat`: one `ListObjectsV2Pages(prefix = key,
delimiter = "/")`; common prefixes and contents are accumulated across
all pages; a prefix group equal to `key + "/"` is reported as a
directory, otherwise an object with key exactly `key` as a file,
otherwise `ErrNoFile`. -/
def s3Stat (pages : List S3Page) (path : String) : Except PathError FileInfo :=
  let key := keyPath path
  let respCommonPrefixes := pages.flatMap S3Page.commonPrefixes
  let respContents := pages.flatMap S3Page.contents
  match respCommonPrefixes.find? (fun p => p = key ++ "/") with
  | some p => .ok ⟨pathBase p, 0, true, 0⟩
  | none =>
    match respContents.find? (fun o => o.key = key) with
    | some obj => .ok ⟨pathBase obj.key, obj.size, false, obj.lastModified⟩
    | none => .error (s3Err "stat" key .noFile)

/-- `S3FileSystem.Readdir`: the listing prefix is `key + "/"` (for a
non-empty key without a trailing slash); pages are aggregated, an empty
aggregate is `ErrNoFile`; every prefix group becomes a directory entry
(own prefix and trailing delimiter trimmed), every object with a
non-empty trimmed key becomes a file entry; the combined entries are
sorted by name. -/
def s3Readdir (pages : List S3Page) (path : String) :
    Except PathError (List FileInfo) :=
  let key0 := keyPath path
  let key := if ¬ hasSuffix key0 "/" ∧ key0 ≠ "" then key0 ++ "/" else key0
  let dirs := pages.flatMap S3Page.commonPrefixes
  let files := pages.flatMap S3Page.contents
  if dirs = [] ∧ files = [] then .error (s3Err "open" key .noFile)
  else
    let dirInfos := dirs.map (fun d =>
      (⟨trimPrefix (trimSuffix d "/") key, 0, true, 0⟩ : FileInfo))
    let fileInfos := files.filterMap (fun f =>
      let fileKey := replaceFirstWithEmpty f.key key
      if fileKey ≠ "" then
        some (⟨fileKey, f.size, false, f.lastModified⟩ : FileInfo)
      else none)
    .ok (sortFileInfos (dirInfos ++ fileInfos))

/-! ## Slice-sharing model for `MemNode.Open` (heap of backing arrays)

`MemNode.Content` returns `bytes.NewReader(mn.content)`: the reader
stores the same slice header as the live node, so both point at one
backing array.  The heap model makes that sharing explicit: a store is a
list of backing arrays, a node's `content` field and a reader both hold a
reference into it. -/

def Store : Type := List (List Nat)

/-- A file node as laid out in the heap model: its `content` slice is a
reference into the store. -/
structure MemNodeRef where
  name : String
  contentRef : Nat
deriving DecidableEq, Repr

/-- `bytes.Reader`: the slice header (here: the reference) plus a read
position. -/
structure BytesReader where
  ref : Nat
  off : Nat
deriving DecidableEq, Repr

/-- `mn.Content() = bytes.NewReader(mn.content)`: the reader is built
from the node's slice header with no copy. -/
def contentReader (n : MemNodeRef) : BytesReader := ⟨n.contentRef, 0⟩

/-- The bytes a full read of the reader yields, given the current store. -/
def readerBytes (σ : Store) (r : BytesReader) : List Nat :=
  (σ.getD r.ref []).drop r.off

/-- The live content of the node, given the current store. -/
def liveContent (σ : Store) (n : MemNodeRef) : List Nat :=
  σ.getD n.contentRef []

/-- In-place mutation of one byte of a backing array
(`content[idx] = b` through any alias of the slice). -/
def storeWrite (σ : Store) (ref idx b : Nat) : Store :=
  σ.set ref ((σ.getD ref []).set idx b)

/-! ## Ordering lemmas -/

/-- The non-strict order the sorted output satisfies: a later entry is
never `Less` than an earlier one (`sort.Sort`'s postcondition for
`Less(i,j) = name_i < name_j`). -/
def infosSorted (l : List FileInfo) : Prop :=
  l.Pairwise (fun a b => infoLt b a = false)

instance (l : List FileInfo) : Decidable (infosSorted l) :=
  inferInstanceAs (Decidable (l.Pairwise _))

theorem lexLt_nil_right : ∀ c : List Char, lexLt c [] = false
  | [] => rfl
  | _ :: _ => rfl

theorem lexLt_asymm : ∀ a b : List Char, lexLt a b = true → lexLt b a = false
  | [], [] => by simp [lexLt]
  | [], _ :: _ => by simp [lexLt]
  | _ :: _, [] => by simp [lexLt]
  | a :: as, b :: bs => by
    rcases Nat.lt_trichotomy a.toNat b.toNat with h | h | h
    · intro
      simp [lexLt, Nat.lt_asymm h, h]
    · intro hab
      have hab' : lexLt as bs = true := by
        simpa [lexLt, h, Nat.lt_irrefl] using hab
      simpa [lexLt, h, Nat.lt_irrefl] using lexLt_asymm as bs hab'
    · intro hab
      exact absurd hab (by simp [lexLt, Nat.lt_asymm h, h])

theorem lexLt_neg_trans :
    ∀ a b c : List Char, lexLt b a = false → lexLt c b = false → lexLt c a = false
  | [], _, c => fun _ _ => lexLt_nil_right c
  | _ :: _, [], _ => fun hba _ => absurd hba (by simp [lexLt])
  | x :: xs, y :: ys, [] => fun _ hcb => absurd hcb (by simp [lexLt])
  | x :: xs, y :: ys, z :: zs => fun hba hcb => by
    simp only [lexLt] at hba hcb ⊢
    rcases Nat.lt_trichotomy y.toNat x.toNat with h1 | h1 | h1
    · simp [h1] at hba
    · rcases Nat.lt_trichotomy z.toNat y.toNat with h2 | h2 | h2
      · simp [h2] at hcb
      · have hba' : lexLt ys xs = false := by
          simpa [h1, Nat.lt_irrefl] using hba
        have hcb' : lexLt zs ys = false := by
          simpa [h2, Nat.lt_irrefl] using hcb
        have hzx : z.toNat = x.toNat := by omega
        simpa [hzx, Nat.lt_irrefl] using lexLt_neg_trans xs ys zs hba' hcb'
      · simp [show ¬ z.toNat < x.toNat by omega, show x.toNat < z.toNat by omega]
    · rcases Nat.lt_trichotomy z.toNat y.toNat with h2 | h2 | h2
      · simp [h2] at hcb
      · simp [show ¬ z.toNat < x.toNat by omega, show x.toNat < z.toNat by omega]
      · simp [show ¬ z.toNat < x.toNat by omega, show x.toNat < z.toNat by omega]

theorem infoLt_asymm {a b : FileInfo} (h : infoLt a b = true) : infoLt b a = false :=
  lexLt_asymm _ _ h

theorem infoLt_neg_trans {a b c : FileInfo}
    (hba : infoLt b a = false) (hcb : infoLt c b = false) : infoLt c a = false :=
  lexLt_neg_trans _ _ _ hba hcb

theorem mem_insertInfo {x y : FileInfo} :
    ∀ l : List FileInfo, y ∈ insertInfo x l ↔ y = x ∨ y ∈ l
  | [] => by simp [insertInfo]
  | z :: zs => by
    simp only [insertInfo]
    split
    · rw [List.mem_cons, mem_insertInfo zs, List.mem_cons]
      tauto
    · simp only [List.mem_cons]

theorem sorted_insertInfo (x : FileInfo) :
    ∀ l : List FileInfo, infosSorted l → infosSorted (insertInfo x l)
  | [], _ => List.pairwise_singleton _ _
  | y :: ys, h => by
    rw [infosSorted, List.pairwise_cons] at h
    simp only [insertInfo]
    by_cases hyx : infoLt y x = true
    · rw [if_pos hyx]
      rw [infosSorted, List.pairwise_cons]
      refine ⟨fun z hz => ?_, sorted_insertInfo x ys h.2⟩
      rcases (mem_insertInfo _).mp hz with rfl | hz
      · exact infoLt_asymm hyx
      · exact h.1 z hz
    · rw [if_neg hyx]
      rw [infosSorted, List.pairwise_cons]
      refine ⟨fun z hz => ?_, ?_⟩
      · rcases List.mem_cons.mp hz with rfl | hz
        · simpa using hyx
        · exact infoLt_neg_trans (by simpa using hyx) (h.1 z hz)
      · rw [List.pairwise_cons]
        exact ⟨h.1, h.2⟩

theorem sorted_sortFileInfos : ∀ l : List FileInfo, infosSorted (sortFileInfos l)
  | [] => List.Pairwise.nil
  | x :: xs => sorted_insertInfo x _ (sorted_sortFileInfos xs)

theorem perm_insertInfo (x : FileInfo) :
    ∀ l : List FileInfo, (insertInfo x l).Perm (x :: l)
  | [] => by simp [insertInfo]
  | y :: ys => by
    simp only [insertInfo]
    split
    · exact ((perm_insertInfo x ys).cons y).trans (List.Perm.swap x y ys)
    · exact List.Perm.refl _

theorem perm_sortFileInfos : ∀ l : List FileInfo, (sortFileInfos l).Perm l
  | [] => List.Perm.refl _
  | x :: xs =>
    (perm_insertInfo x (sortFileInfos xs)).trans ((perm_sortFileInfos xs).cons x)

/-! ## Tree-update lemmas -/

theorem splitAtName_eq (p : String) :
    ∀ (l : List MemNode) pre c post, splitAtName p l = some (pre, c, post) →
      l = pre ++ c :: post ∧ c.name = p ∧ ∀ x ∈ pre, ¬ x.name = p
  | [], pre, c, post => by simp [splitAtName]
  | a :: as, pre, c, post => by
    simp only [splitAtName]
    split
    · rename_i ha
      intro h
      obtain ⟨rfl, rfl, rfl⟩ := by simpa using h
      simpa using ha
    · rename_i ha
      match hs : splitAtName p as with
      | none => simp
      | some (pre', d, post') =>
        intro h
        obtain ⟨rfl, rfl, rfl⟩ := by simpa using h
        obtain ⟨h1, h2, h3⟩ := splitAtName_eq p as pre' d post' hs
        refine ⟨by rw [h1]; simp, h2, ?_⟩
        intro x hx
        rcases List.mem_cons.mp hx with rfl | hx
        · exact ha
        · exact h3 x hx

theorem splitAtName_none (p : String) :
    ∀ l : List MemNode, splitAtName p l = none ↔ ∀ x ∈ l, ¬ x.name = p
  | [] => by simp [splitAtName]
  | a :: as => by
    simp only [splitAtName]
    split
    · rename_i ha
      simp [ha]
    · rename_i ha
      match hs : splitAtName p as with
      | none =>
        simp only [List.mem_cons]
        constructor
        · intro _ x hx
          rcases hx with rfl | hx
          · exact ha
          · exact (splitAtName_none p as).mp hs x hx
        · intro _
          trivial
      | some (pre', d, post') =>
        simp only [List.mem_cons]
        constructor
        · intro h
          exact absurd h (by simp)
        · intro h
          obtain ⟨_, h2, _⟩ := splitAtName_eq p as pre' d post' hs
          exact absurd (h2) (h d (by
            obtain ⟨h1, _, _⟩ := splitAtName_eq p as pre' d post' hs
            rw [h1]; right; simp))

/-- The node `updAt` finds is exactly the node `child` resolves. -/
theorem updAt_fst_eq_child (f : MemNode → MemNode) :
    ∀ (parts : List String) (t : MemNode),
      (t.updAt f parts).map Prod.fst = t.child parts
  | [], t => rfl
  | p :: rest, t => by
    simp only [MemNode.updAt, MemNode.child]
    split
    · rfl
    · match hs : splitAtName p t.children with
      | none =>
        have hcb : t.childByName p = none := by
          rw [MemNode.childByName, List.find?_eq_none]
          intro x hx
          simpa using ((splitAtName_none p t.children).mp hs) x hx
        simp [hcb]
      | some (pre, c, post) =>
        obtain ⟨h1, h2, h3⟩ := splitAtName_eq p t.children pre c post hs
        have hcb : t.childByName p = some c := by
          rw [MemNode.childByName, h1, List.find?_append]
          have : pre.find? (fun x => x.name = p) = none := by
            rw [List.find?_eq_none]
            intro x hx
            simpa using h3 x hx
          simp [this, List.find?_cons, h2]
        rw [hcb]
        have hrec := updAt_fst_eq_child f rest c
        match hu : c.updAt f rest with
        | none =>
          rw [hu] at hrec
          simp only [hu]
          simpa using hrec
        | some (d, c') =>
          rw [hu] at hrec
          simp only [hu]
          simpa using hrec

/-- `updAt` with a name-preserving mutation preserves the updated node's
name. -/
theorem updAt_name (f : MemNode → MemNode) (hf : ∀ x, (f x).name = x.name) :
    ∀ (parts : List String) (t d t' : MemNode),
      t.updAt f parts = some (d, t') → t'.name = t.name
  | [], t, d, t' => by
    simp only [MemNode.updAt]
    intro h
    obtain ⟨rfl, rfl⟩ := by simpa using h
    exact hf t
  | p :: rest, t, d, t' => by
    simp only [MemNode.updAt]
    split
    · intro h
      obtain ⟨rfl, rfl⟩ := by simpa using h
      exact hf t
    · match hs : splitAtName p t.children with
      | none => simp
      | some (pre, c, post) =>
        match hu : c.updAt f rest with
        | none => simp [hu]
        | some (d0, c') =>
          simp only [hu]
          intro h
          obtain ⟨rfl, rfl⟩ := by simpa using h
          cases t
          rfl

/-- Reading back the updated path finds the mutated node. -/
theorem child_after_updAt (f : MemNode → MemNode) (hf : ∀ x, (f x).name = x.name) :
    ∀ (parts : List String) (t d t' : MemNode),
      t.updAt f parts = some (d, t') → t'.child parts = some (f d)
  | [], t, d, t' => by
    simp only [MemNode.updAt]
    intro h
    obtain ⟨rfl, rfl⟩ := by simpa using h
    rfl
  | p :: rest, t, d, t' => by
    simp only [MemNode.updAt, MemNode.child]
    split
    · intro h
      obtain ⟨rfl, rfl⟩ := by simpa using h
      simp [MemNode.child, *]
    · match hs : splitAtName p t.children with
      | none => simp
      | some (pre, c, post) =>
        match hu : c.updAt f rest with
        | none => simp [hu]
        | some (d0, c') =>
          simp only [hu]
          intro h
          obtain ⟨rfl, rfl⟩ := by simpa using h
          obtain ⟨h1, h2, h3⟩ := splitAtName_eq p t.children pre c post hs
          have hc' : c'.name = c.name := updAt_name f hf rest c d0 c' hu
          have hcb : (t.withChildren (pre ++ c' :: post)).childByName p = some c' := by
            rw [MemNode.childByName]
            have hch : (t.withChildren (pre ++ c' :: post)).children = pre ++ c' :: post := by
              cases t; rfl
            rw [hch, List.find?_append]
            have hpre : pre.find? (fun x => x.name = p) = none := by
              rw [List.find?_eq_none]
              intro x hx
              simpa using h3 x hx
            simp [hpre, List.find?_cons, hc', h2]
          rw [hcb]
          exact child_after_updAt f hf rest c d0 c' hu

/-! ## Unique-names lemmas -/

theorem distinctNames_iff : ∀ l : List String, distinctNames l = true ↔ l.Nodup
  | [] => by simp [distinctNames]
  | n :: ns => by
    simp [distinctNames, distinctNames_iff ns, List.nodup_cons, List.elem_iff]

theorem allUnique_iff : ∀ l : List MemNode,
    allUnique l = true ↔ ∀ c ∈ l, c.uniqueNames = true
  | [] => by simp [allUnique]
  | c :: cs => by
    simp [allUnique, allUnique_iff cs]

/-- Unfolding characterization of the invariant. -/
theorem uniqueNames_iff (t : MemNode) :
    t.uniqueNames = true ↔
      (t.children.map MemNode.name).Nodup ∧ ∀ c ∈ t.children, c.uniqueNames = true := by
  cases t with
  | mk n d m c ch =>
    rw [MemNode.uniqueNames]
    simp [distinctNames_iff, allUnique_iff, MemNode.children]

/-- The node found by a successful `updAt` in a unique tree is itself
unique, and if its mutation is unique (and name-preserving) the whole
updated tree stays unique. -/
theorem uniqueNames_updAt (f : MemNode → MemNode) (hf : ∀ x, (f x).name = x.name) :
    ∀ (parts : List String) (t d t' : MemNode),
      t.updAt f parts = some (d, t') → t.uniqueNames = true →
      d.uniqueNames = true ∧ ((f d).uniqueNames = true → t'.uniqueNames = true)
  | [], t, d, t' => by
    simp only [MemNode.updAt]
    intro h hu
    obtain ⟨rfl, rfl⟩ := by simpa using h
    exact ⟨hu, id⟩
  | p :: rest, t, d, t' => by
    simp only [MemNode.updAt]
    split
    · intro h hu
      obtain ⟨rfl, rfl⟩ := by simpa using h
      exact ⟨hu, id⟩
    · match hs : splitAtName p t.children with
      | none => simp
      | some (pre, c, post) =>
        match hc : c.updAt f rest with
        | none => simp [hc]
        | some (d0, c') =>
          simp only [hc]
          intro h hu
          obtain ⟨rfl, rfl⟩ := by simpa using h
          obtain ⟨h1, h2, h3⟩ := splitAtName_eq p t.children pre c post hs
          rw [uniqueNames_iff] at hu
          have hcmem : c ∈ t.children := by rw [h1]; simp
          have hcu : c.uniqueNames = true := hu.2 c hcmem
          obtain ⟨hd, hc'u⟩ := uniqueNames_updAt f hf rest c d0 c' hc hcu
          refine ⟨hd, fun hfd => ?_⟩
          have hc'name : c'.name = c.name := updAt_name f hf rest c d0 c' hc
          rw [uniqueNames_iff]
          have hch : (t.withChildren (pre ++ c' :: post)).children = pre ++ c' :: post := by
            cases t; rfl
          rw [hch]
          constructor
          · have : (pre ++ c' :: post).map MemNode.name
                = (pre ++ c :: post).map MemNode.name := by
              simp [hc'name]
            rw [this, ← h1]
            exact hu.1
          · intro x hx
            rcases List.mem_append.mp hx with hx | hx
            · exact hu.2 x (by rw [h1]; exact List.mem_append.mpr (.inl hx))
            · rcases List.mem_cons.mp hx with rfl | hx
              · exact hc'u hfd
              · exact hu.2 x (by rw [h1]; exact List.mem_append.mpr (.inr (List.mem_cons.mpr (.inr hx))))

/-! ## `withChildren` accessors and filter helpers -/

theorem children_withChildren (t : MemNode) (l : List MemNode) :
    (t.withChildren l).children = l := by
  cases t; rfl

theorem name_withChildren (t : MemNode) (l : List MemNode) :
    (t.withChildren l).name = t.name := by
  cases t; rfl

theorem isDir_withChildren (t : MemNode) (l : List MemNode) :
    (t.withChildren l).isDir = t.isDir := by
  cases t; rfl

theorem content_withChildren (t : MemNode) (l : List MemNode) :
    (t.withChildren l).content = t.content := by
  cases t; rfl

/-- Filtering a directory's children preserves the unique-names
invariant. -/
theorem uniqueNames_filterChildren (d : MemNode) (q : MemNode → Bool)
    (h : d.uniqueNames = true) :
    (d.withChildren (d.children.filter q)).uniqueNames = true := by
  rw [uniqueNames_iff] at h ⊢
  rw [children_withChildren]
  constructor
  · exact List.Nodup.sublist ((List.filter_sublist d.children).map MemNode.name) h.1
  · intro c hc
    exact h.2 c (List.mem_of_mem_filter hc)

theorem filter_length_eq_iff {α : Type} (q : α → Bool) :
    ∀ l : List α, (l.filter q).length = l.length ↔ ∀ x ∈ l, q x = true
  | [] => by simp
  | x :: xs => by
    by_cases hx : q x = true
    · simp [hx, filter_length_eq_iff q xs]
    · have hfx : List.filter q (x :: xs) = List.filter q xs := by
        simp [List.filter_cons, hx]
      rw [hfx, List.length_cons]
      constructor
      · intro h
        have := List.length_filter_le q xs
        omega
      · intro h
        exact absurd (h x (by simp)) hx

/-- Appending a freshly named node to a unique directory preserves the
invariant. -/
theorem uniqueNames_appendChild (d : MemNode) (node : MemNode)
    (hd : d.uniqueNames = true)
    (hnew : node.name ∉ d.children.map MemNode.name)
    (hnode : node.uniqueNames = true) :
    (d.withChildren (d.children ++ [node])).uniqueNames = true := by
  rw [uniqueNames_iff] at hd ⊢
  rw [children_withChildren]
  constructor
  · rw [List.map_append]
    simp only [List.map_cons, List.map_nil]
    rw [List.nodup_append]
    refine ⟨hd.1, List.nodup_singleton _, ?_⟩
    intro a ha hb
    rw [List.mem_singleton] at hb
    exact hnew (hb ▸ ha)
  · intro c hc
    rcases List.mem_append.mp hc with hc | hc
    · exact hd.2 c hc
    · rcases List.mem_singleton.mp hc with rfl
      exact hnode

/-! ## `pathBase` idempotency -/

theorem dropWhile_head_not {p : Char → Bool} :
    ∀ (l : List Char) (x : Char) (xs : List Char),
      l.dropWhile p = x :: xs → p x = false
  | [], x, xs => by simp
  | c :: cs, x, xs => by
    by_cases hc : p c
    · rw [List.dropWhile_cons_of_pos hc]
      exact dropWhile_head_not cs x xs
    · rw [List.dropWhile_cons_of_neg hc]
      intro h
      obtain ⟨rfl, rfl⟩ := by simpa using h
      simpa using hc

theorem baseCharsRev_ne_nil (r : List Char) : baseCharsRev r ≠ [] := by
  by_cases ht : r.dropWhile (· = '/') = []
  · rw [baseCharsRev, if_pos ht]
    simp
  · obtain ⟨c, cs, hcs⟩ : ∃ c cs, r.dropWhile (· = '/') = c :: cs := by
      match h : r.dropWhile (· = '/') with
      | [] => exact absurd h ht
      | c :: cs => exact ⟨c, cs, rfl⟩
    have hc : (c = '/') = False := by
      simpa using dropWhile_head_not r c cs hcs
    rw [baseCharsRev, if_neg ht, hcs]
    rw [List.takeWhile_cons_of_pos (by simp [hc])]
    simp

theorem baseCharsRev_idem (r : List Char) :
    baseCharsRev (baseCharsRev r) = baseCharsRev r := by
  by_cases ht : r.dropWhile (· = '/') = []
  · have h1 : baseCharsRev r = ['/'] := by rw [baseCharsRev, if_pos ht]
    rw [h1]
    decide
  · obtain ⟨c, cs, hcs⟩ : ∃ c cs, r.dropWhile (· = '/') = c :: cs := by
      match h : r.dropWhile (· = '/') with
      | [] => exact absurd h ht
      | c :: cs => exact ⟨c, cs, rfl⟩
    have hc : (c = '/') = False := by
      simpa using dropWhile_head_not r c cs hcs
    have h1 : baseCharsRev r = c :: cs.takeWhile (· ≠ '/') := by
      rw [baseCharsRev, if_neg ht, hcs]
      rw [List.takeWhile_cons_of_pos (by simp [hc])]
    rw [h1]
    have hdrop : (c :: cs.takeWhile (· ≠ '/')).dropWhile (· = '/')
        = c :: cs.takeWhile (· ≠ '/') :=
      List.dropWhile_cons_of_neg (by simp [hc])
    rw [baseCharsRev, hdrop, if_neg (by simp)]
    rw [List.takeWhile_cons_of_pos (by simp [hc])]
    congr 1
    exact List.takeWhile_idem

theorem mk_eq_empty_iff (l : List Char) : String.mk l = "" ↔ l = [] := by
  constructor
  · intro h
    have : (String.mk l).data = ("" : String).data := by rw [h]
    simpa using this
  · intro h
    rw [h]

theorem pathBase_idem (p : String) : pathBase (pathBase p) = pathBase p := by
  by_cases hp : p = ""
  · subst hp
    rfl
  · have h1 : pathBase p = String.mk (baseCharsRev p.data.reverse).reverse := by
      rw [pathBase, if_neg hp]
    have hne : String.mk (baseCharsRev p.data.reverse).reverse ≠ "" := by
      intro hcon
      have := (mk_eq_empty_iff _).mp hcon
      exact baseCharsRev_ne_nil p.data.reverse (by simpa using this)
    rw [h1, pathBase, if_neg hne]
    have hdata : (String.mk (baseCharsRev p.data.reverse).reverse).data
        = (baseCharsRev p.data.reverse).reverse := rfl
    rw [hdata, List.reverse_reverse, baseCharsRev_idem]

/-! ## Idempotence of rooted cleaning

`Clean("/" + ...)` is applied repeatedly by the tree backend (`Open`,
`Create`, `parentNode`, ... all re-clean already-clean paths); the
operations agree on where a path's parent lives because rooted cleaning
is idempotent.  The proof goes through the component normal form. -/

/-- A component of a cleaned rooted path: non-empty, not a dot component,
and slash-free. -/
def goodComp (c : String) : Prop :=
  c ≠ "" ∧ c ≠ "." ∧ c ≠ ".." ∧ '/' ∉ c.data

theorem splitSlashChars_no_slash :
    ∀ (l cur : List Char), ('/' ∉ cur) →
      ∀ s ∈ splitSlashChars l cur, '/' ∉ s.data
  | [], cur, hcur => by
    simp only [splitSlashChars, List.mem_singleton]
    rintro s rfl
    simpa using fun h => hcur (List.mem_reverse.mp h)
  | c :: cs, cur, hcur => by
    simp only [splitSlashChars]
    split
    · rename_i hc
      intro s hs
      rcases List.mem_cons.mp hs with rfl | hs
      · simpa using fun h => hcur (List.mem_reverse.mp h)
      · exact splitSlashChars_no_slash cs [] (by simp) s hs
    · rename_i hc
      intro s hs
      refine splitSlashChars_no_slash cs (c :: cur) ?_ s hs
      intro h
      rcases List.mem_cons.mp h with rfl | h
      · exact hc rfl
      · exact hcur h

theorem splitSlash_no_slash (s : String) : ∀ x ∈ splitSlash s, '/' ∉ x.data :=
  splitSlashChars_no_slash s.data [] (by simp)

theorem cleanCore_rooted_good :
    ∀ (input acc : List String), (∀ a ∈ acc, goodComp a) →
      (∀ x ∈ input, '/' ∉ x.data) →
      ∀ c ∈ cleanCore true input acc, goodComp c
  | [], acc, hacc, _ => by
    simpa [cleanCore] using fun c hc => hacc c (List.mem_reverse.mp hc)
  | p :: ps, [], hacc, hin => by
    have hin' : ∀ x ∈ ps, '/' ∉ x.data := fun x hx => hin x (by simp [hx])
    by_cases h1 : p = "" ∨ p = "."
    · rw [cleanCore, if_pos h1]
      exact cleanCore_rooted_good ps [] (by simp) hin'
    · by_cases h2 : p = ".."
      · rw [cleanCore, if_neg h1, if_pos h2, if_pos rfl]
        exact cleanCore_rooted_good ps [] (by simp) hin'
      · rw [cleanCore, if_neg h1, if_neg h2]
        refine cleanCore_rooted_good ps [p] ?_ hin'
        intro c hc
        rw [List.mem_singleton] at hc
        subst hc
        exact ⟨fun h => h1 (.inl h), fun h => h1 (.inr h), h2, hin c (by simp)⟩
  | p :: ps, a :: rest, hacc, hin => by
    have hin' : ∀ x ∈ ps, '/' ∉ x.data := fun x hx => hin x (by simp [hx])
    by_cases h1 : p = "" ∨ p = "."
    · rw [cleanCore, if_pos h1]
      exact cleanCore_rooted_good ps _ hacc hin'
    · by_cases h2 : p = ".."
      · by_cases h3 : a = ".."
        · exact absurd h3 (hacc a (by simp)).2.2.1
        · rw [cleanCore, if_neg h1, if_pos h2, if_neg h3]
          exact cleanCore_rooted_good ps rest (fun c hc => hacc c (by simp [hc])) hin'
      · rw [cleanCore, if_neg h1, if_neg h2]
        refine cleanCore_rooted_good ps _ ?_ hin'
        intro c hc
        rcases List.mem_cons.mp hc with rfl | hc
        · exact ⟨fun h => h1 (.inl h), fun h => h1 (.inr h), h2, hin c (by simp)⟩
        · exact hacc c hc

theorem splitSlashChars_no_slash_seg :
    ∀ (pre : List Char), (∀ x ∈ pre, ¬ x = '/') →
      ∀ (cur rest : List Char),
        splitSlashChars (pre ++ '/' :: rest) cur
          = String.mk (cur.reverse ++ pre) :: splitSlashChars rest []
  | [], _, cur, rest => by
    simp [splitSlashChars]
  | c :: cs, h, cur, rest => by
    have hc : ¬ c = '/' := h c (by simp)
    rw [List.cons_append, splitSlashChars, if_neg hc]
    rw [splitSlashChars_no_slash_seg cs (fun x hx => h x (by simp [hx])) (c :: cur) rest]
    simp

theorem splitSlashChars_no_slash_last :
    ∀ (pre : List Char), (∀ x ∈ pre, ¬ x = '/') →
      ∀ (cur : List Char),
        splitSlashChars pre cur = [String.mk (cur.reverse ++ pre)]
  | [], _, cur => by simp [splitSlashChars]
  | c :: cs, h, cur => by
    have hc : ¬ c = '/' := h c (by simp)
    rw [splitSlashChars, if_neg hc]
    rw [splitSlashChars_no_slash_last cs (fun x hx => h x (by simp [hx])) (c :: cur)]
    simp

theorem mk_data (s : String) : String.mk s.data = s := rfl

/-- Splitting the slash-joined form of slash-free non-empty components
recovers the components. -/
theorem splitSlash_joinSlash :
    ∀ comps : List String, (∀ c ∈ comps, '/' ∉ c.data) → comps ≠ [] →
      splitSlash (joinSlash comps) = comps
  | [], _, h => absurd rfl h
  | [c], hgood, _ => by
    rw [joinSlash]
    rw [splitSlash]
    rw [splitSlashChars_no_slash_last c.data
      (fun x hx hxeq => hgood c (by simp) (hxeq ▸ hx)) []]
    simp [mk_data]
  | c :: c' :: cs, hgood, _ => by
    have hdata : (joinSlash (c :: c' :: cs)).data
        = c.data ++ '/' :: (joinSlash (c' :: cs)).data := by
      rw [show joinSlash (c :: c' :: cs) = c ++ "/" ++ joinSlash (c' :: cs) from rfl]
      simp
    rw [splitSlash, hdata]
    rw [splitSlashChars_no_slash_seg c.data
      (fun x hx hxeq => hgood c (by simp) (hxeq ▸ hx)) []]
    rw [show splitSlashChars (joinSlash (c' :: cs)).data []
        = splitSlash (joinSlash (c' :: cs)) from rfl]
    rw [splitSlash_joinSlash (c' :: cs)
      (fun x hx => hgood x (by simp [hx])) (by simp)]
    simp [mk_data]

/-- Cleaning a list of good components is the identity. -/
theorem cleanCore_good_id :
    ∀ (comps acc : List String), (∀ c ∈ comps, goodComp c) →
      cleanCore true comps acc = acc.reverse ++ comps
  | [], acc, _ => by simp [cleanCore]
  | p :: ps, acc, hgood => by
    have hp : goodComp p := hgood p (by simp)
    have h1 : ¬ (p = "" ∨ p = ".") := fun h => h.elim hp.1 hp.2.1
    have h2 : ¬ p = ".." := hp.2.2.1
    cases acc with
    | nil =>
      rw [cleanCore, if_neg h1, if_neg h2]
      rw [cleanCore_good_id ps [p] (fun c hc => hgood c (by simp [hc]))]
      simp
    | cons a rest =>
      rw [cleanCore, if_neg h1, if_neg h2]
      rw [cleanCore_good_id ps (p :: a :: rest) (fun c hc => hgood c (by simp [hc]))]
      simp

theorem data_slash_append (s : String) : ("/" ++ s).data = '/' :: s.data := rfl

theorem slash_append_ne_empty (s : String) : ("/" ++ s) ≠ "" := by
  intro h
  have : ("/" ++ s).data = ("" : String).data := by rw [h]
  rw [data_slash_append] at this
  simp at this

theorem hasPrefix_slash (s : String) : hasPrefix ("/" ++ s) "/" = true := by
  rw [hasPrefix, data_slash_append]
  simp [List.isPrefixOf]

theorem splitSlash_slash_append (s : String) :
    splitSlash ("/" ++ s) = "" :: splitSlash s := by
  rw [splitSlash, data_slash_append, splitSlashChars]
  simp [splitSlash]

theorem cleanCore_skip_empty (rooted : Bool) (rest : List String) :
    cleanCore rooted ("" :: rest) [] = cleanCore rooted rest [] := by
  rw [cleanCore, if_pos (by simp)]

/-- Rooted cleaning is idempotent. -/
theorem pathClean_root_idem (p : String) :
    pathClean ("/" ++ pathClean ("/" ++ p)) = pathClean ("/" ++ p) := by
  have hcomps : ∀ c ∈ cleanCore true (splitSlash ("/" ++ p)) [], goodComp c :=
    cleanCore_rooted_good (splitSlash ("/" ++ p)) [] (by simp)
      (splitSlash_no_slash ("/" ++ p))
  have hq : pathClean ("/" ++ p)
      = "/" ++ joinSlash (cleanCore true (splitSlash ("/" ++ p)) []) := by
    rw [pathClean, if_neg (slash_append_ne_empty p)]
    simp only [hasPrefix_slash]
    rfl
  rw [hq]
  match hcs : cleanCore true (splitSlash ("/" ++ p)) [] with
  | [] =>
    rw [show joinSlash [] = "" from rfl]
    decide
  | c :: cs =>
    have hgood : ∀ x ∈ c :: cs, goodComp x := by
      rw [← hcs]
      exact hcomps
    rw [pathClean, if_neg (slash_append_ne_empty _)]
    simp only [hasPrefix_slash]
    rw [splitSlash_slash_append, splitSlash_slash_append]
    rw [splitSlash_joinSlash (c :: cs) (fun x hx => (hgood x hx).2.2.2) (by simp)]
    rw [cleanCore_skip_empty, cleanCore_skip_empty]
    rw [cleanCore_good_id (c :: cs) [] hgood]
    rfl

/-- The parent parts used by `Remove`/`parentNode` on an already-cleaned
path agree with the parts `Create` stores in the handle. -/
theorem parentParts_clean (p : String) :
    parentParts (pathClean ("/" ++ p)) = pathParts (pathDir (pathClean ("/" ++ p))) := by
  rw [parentParts, pathClean_root_idem]

/-! ## Operation-level characterizations -/

/-- The cleaned form every tree-backend operation gives a path. -/
def cleanedPath (p : String) : String := pathClean ("/" ++ p)

/-- The base name an operation acts on. -/
def baseOf (p : String) : String := pathBase (cleanedPath p)

/-- The component path of the parent directory an operation resolves. -/
def ppOf (p : String) : List String := pathParts (pathDir (cleanedPath p))

/-- The child-list filter `Remove` applies. -/
def removeFilter (p : String) (d : MemNode) : MemNode :=
  d.withChildren (d.children.filter (fun c => ¬ c.name = baseOf p))

theorem parentParts_eq_ppOf (p : String) :
    parentParts (pathClean ("/" ++ p)) = ppOf p := by
  rw [parentParts_clean]
  rfl

theorem baseOf_eq (p : String) : pathBase (pathClean ("/" ++ p)) = baseOf p := rfl

theorem remove_parent_found (t : MemNode) (p : String) (d : MemNode)
    (hd : t.child (ppOf p) = some d) :
    ∃ t', t.updAt
        (fun d => d.withChildren (d.children.filter (fun c => ¬ c.name = baseOf p)))
        (ppOf p) = some (d, t') := by
  have hu := updAt_fst_eq_child
    (fun d => d.withChildren (d.children.filter (fun c => ¬ c.name = baseOf p)))
    (ppOf p) t
  rw [hd] at hu
  match hx : t.updAt
      (fun d => d.withChildren (d.children.filter (fun c => ¬ c.name = baseOf p)))
      (ppOf p) with
  | none =>
    rw [hx] at hu
    simp at hu
  | some (d0, t') =>
    rw [hx] at hu
    obtain rfl : d0 = d := by simpa using hu
    exact ⟨t', rfl⟩

theorem remove_none (t : MemNode) (p : String)
    (h : t.child (ppOf p) = none) :
    t.Remove p = .error ⟨"remove", cleanedPath p,
      .errorf ("No parent directory " ++ cleanedPath p)⟩ := by
  rw [MemNode.Remove, parentParts_eq_ppOf p, baseOf_eq p]
  have hu := updAt_fst_eq_child
    (fun d => d.withChildren (d.children.filter (fun c => ¬ c.name = baseOf p)))
    (ppOf p) t
  rw [h] at hu
  match hx : t.updAt
      (fun d => d.withChildren (d.children.filter (fun c => ¬ c.name = baseOf p)))
      (ppOf p) with
  | none => rfl
  | some (d, t') =>
    rw [hx] at hu
    simp at hu

theorem remove_nondir (t : MemNode) (p : String) (d : MemNode)
    (hd : t.child (ppOf p) = some d) (hdir : d.isDir = false) :
    t.Remove p = .error ⟨"remove", cleanedPath p,
      .errorf ("No parent directory " ++ cleanedPath p)⟩ := by
  obtain ⟨t', hupd⟩ := remove_parent_found t p d hd
  rw [MemNode.Remove, parentParts_eq_ppOf p, baseOf_eq p, hupd]
  simp [hdir, cleanedPath]

theorem remove_nofile (t : MemNode) (p : String) (d : MemNode)
    (hd : t.child (ppOf p) = some d) (hdir : d.isDir = true)
    (hnone : ∀ c ∈ d.children, ¬ c.name = baseOf p) :
    t.Remove p = .error ⟨"remove", cleanedPath p, .noFile⟩ := by
  obtain ⟨t', hupd⟩ := remove_parent_found t p d hd
  rw [MemNode.Remove, parentParts_eq_ppOf p, baseOf_eq p, hupd]
  simp [hdir, cleanedPath]
  intro c hc
  simpa using hnone c hc

theorem remove_ok (t : MemNode) (p : String) (d : MemNode)
    (hd : t.child (ppOf p) = some d) (hdir : d.isDir = true)
    (hsome : ∃ c ∈ d.children, c.name = baseOf p) :
    ∃ t', t.Remove p = .ok t' ∧
      t'.child (ppOf p) = some (removeFilter p d) ∧
      (t.uniqueNames = true → t'.uniqueNames = true) := by
  obtain ⟨t', hupd⟩ := remove_parent_found t p d hd
  refine ⟨t', ?_, ?_, ?_⟩
  · rw [MemNode.Remove, parentParts_eq_ppOf p, baseOf_eq p, hupd]
    simp [hdir]
    obtain ⟨c, hc, hcname⟩ := hsome
    exact ⟨c, hc, by simpa using hcname⟩
  · exact child_after_updAt
      (fun d => d.withChildren (d.children.filter (fun c => ¬ c.name = baseOf p)))
      (fun x => name_withChildren x _) (ppOf p) t d t' hupd
  · intro hu
    have h := uniqueNames_updAt
      (fun d => d.withChildren (d.children.filter (fun c => ¬ c.name = baseOf p)))
      (fun x => name_withChildren x _) (ppOf p) t d t' hupd hu
    exact h.2 (uniqueNames_filterChildren d _ h.1)

theorem ppOf_eq (p : String) :
    pathParts (pathDir (pathClean ("/" ++ p))) = ppOf p := rfl

theorem cleanedPath_clean (p : String) :
    cleanedPath (cleanedPath p) = cleanedPath p :=
  pathClean_root_idem p

theorem ppOf_clean (p : String) : ppOf (cleanedPath p) = ppOf p := by
  rw [ppOf, cleanedPath_clean]
  rfl

theorem baseOf_clean (p : String) : baseOf (cleanedPath p) = baseOf p := by
  rw [baseOf, cleanedPath_clean]
  rfl

theorem removeFilter_clean (p : String) (d : MemNode) :
    removeFilter (cleanedPath p) d = removeFilter p d := by
  rw [removeFilter, removeFilter, baseOf_clean]

theorem withChildren_withChildren (d : MemNode) (l l' : List MemNode) :
    (d.withChildren l).withChildren l' = d.withChildren l' := by
  cases d; rfl

theorem uniqueNames_leaf (n : String) (b : Bool) (m : Nat) (c : List Nat) :
    (MemNode.mk n b m c []).uniqueNames = true := by
  rw [MemNode.uniqueNames]
  simp [distinctNames, allUnique]

theorem baseOf_base (p : String) : pathBase (baseOf p) = baseOf p :=
  pathBase_idem (cleanedPath p)

/-- `Create` at a fresh path: the handle records the parent's component
path and the base name, and the tree is untouched until close. -/
theorem create_fresh (t : MemNode) (p : String) (d : MemNode)
    (hd : t.child (ppOf p) = some d) (hdir : d.isDir = true)
    (hnone : ∀ c ∈ d.children, ¬ c.name = baseOf p) :
    t.Create p = .ok (t, ⟨false, [], ppOf p, baseOf p⟩) := by
  have hrm := remove_nofile t (pathClean ("/" ++ p)) d
    (by rw [show ppOf (pathClean ("/" ++ p)) = ppOf p from ppOf_clean p]; exact hd)
    hdir
    (by rw [show baseOf (pathClean ("/" ++ p)) = baseOf p from baseOf_clean p]; exact hnone)
  rw [MemNode.Create, MemNode.childByPath, ppOf_eq p, hd]
  rw [hrm]
  simp [hdir]
  rfl

/-- `Create` at an existing path removes the old entry immediately. -/
theorem create_existing (t : MemNode) (p : String) (d : MemNode)
    (hd : t.child (ppOf p) = some d) (hdir : d.isDir = true)
    (hsome : ∃ c ∈ d.children, c.name = baseOf p) :
    ∃ t1, t.Create p = .ok (t1, ⟨false, [], ppOf p, baseOf p⟩) ∧
      t1.child (ppOf p) = some (removeFilter p d) ∧
      (t.uniqueNames = true → t1.uniqueNames = true) := by
  obtain ⟨t1, hrm, hch, hun⟩ := remove_ok t (pathClean ("/" ++ p)) d
    (by rw [show ppOf (pathClean ("/" ++ p)) = ppOf p from ppOf_clean p]; exact hd)
    hdir
    (by rw [show baseOf (pathClean ("/" ++ p)) = baseOf p from baseOf_clean p]; exact hsome)
  refine ⟨t1, ?_, ?_, hun⟩
  · rw [MemNode.Create, MemNode.childByPath, ppOf_eq p, hd]
    rw [hrm]
    simp [hdir]
    rfl
  · rw [show ppOf (pathClean ("/" ++ p)) = ppOf p from ppOf_clean p] at hch
    rw [show removeFilter (pathClean ("/" ++ p)) d = removeFilter p d
      from removeFilter_clean p d] at hch
    exact hch

/-- `memFile.Close` on a fresh handle appends the new file node to the
recorded parent. -/
theorem close_spec (t1 : MemNode) (pp : List String) (base : String)
    (data : List Nat) (now : Nat) (d1 : MemNode)
    (hd1 : t1.child pp = some d1) :
    ∃ t2, (⟨false, data, pp, base⟩ : MemFile).Close t1 now
        = .ok (⟨true, data, pp, base⟩, t2) ∧
      t2.child pp = some (d1.withChildren
        (d1.children ++ [MemNode.mk (pathBase base) false now data []])) ∧
      (t1.uniqueNames = true →
        pathBase base ∉ d1.children.map MemNode.name →
        t2.uniqueNames = true) := by
  have hu := updAt_fst_eq_child
    (fun d => d.withChildren (d.children ++ [MemNode.mk (pathBase base) false now data []]))
    pp t1
  rw [hd1] at hu
  match hx : t1.updAt
      (fun d => d.withChildren (d.children ++ [MemNode.mk (pathBase base) false now data []]))
      pp with
  | none =>
    rw [hx] at hu
    simp at hu
  | some (d0, t2) =>
    rw [hx] at hu
    have hdd : d0 = d1 := by simpa using hu
    refine ⟨t2, ?_, ?_, ?_⟩
    · rw [MemFile.Close]
      simp only [if_neg (by simp : ¬ (false = true))]
      rw [hx]
    · rw [← hdd]
      exact child_after_updAt
        (fun d => d.withChildren (d.children ++ [MemNode.mk (pathBase base) false now data []]))
        (fun x => name_withChildren x _) pp t1 d0 t2 hx
    · intro hut hnm
      have h := uniqueNames_updAt
        (fun d => d.withChildren (d.children ++ [MemNode.mk (pathBase base) false now data []]))
        (fun x => name_withChildren x _) pp t1 d0 t2 hx hut
      refine h.2 (uniqueNames_appendChild d0 _ h.1 ?_ (uniqueNames_leaf _ _ _ _))
      rw [hdd]
      simpa using hnm

/-- The composite `Create`; write `data`; `Close`: the parent's child list
ends up as the base-filtered original children plus the fresh node, and
the unique-names invariant is preserved. -/
theorem createClose_spec (t : MemNode) (p : String) (data : List Nat) (now : Nat)
    (d : MemNode) (hd : t.child (ppOf p) = some d) (hdir : d.isDir = true) :
    ∃ t2, t.createClose p data now = .ok t2 ∧
      t2.child (ppOf p) = some (d.withChildren
        ((d.children.filter (fun c => ¬ c.name = baseOf p))
          ++ [MemNode.mk (baseOf p) false now ([] ++ data) []])) ∧
      (t.uniqueNames = true → t2.uniqueNames = true) := by
  by_cases hex : ∃ c ∈ d.children, c.name = baseOf p
  · obtain ⟨t1, hcr, hch, hun⟩ := create_existing t p d hd hdir hex
    obtain ⟨t2, hcl, hch2, hun2⟩ :=
      close_spec t1 (ppOf p) (baseOf p) ([] ++ data) now (removeFilter p d) hch
    refine ⟨t2, ?_, ?_, ?_⟩
    · simp only [MemNode.createClose, hcr, MemFile.Write, Bool.false_eq_true,
        if_false, hcl]
    · rw [removeFilter] at hch2
      rw [children_withChildren, withChildren_withChildren, baseOf_base] at hch2
      exact hch2
    · intro hut
      refine hun2 (hun hut) ?_
      rw [removeFilter, children_withChildren, baseOf_base]
      intro hmem
      obtain ⟨c, hc, hcname⟩ := List.mem_map.mp hmem
      have := List.of_mem_filter hc
      simp [hcname] at this
  · have hnone : ∀ c ∈ d.children, ¬ c.name = baseOf p := by
      intro c hc hname
      exact hex ⟨c, hc, hname⟩
    have hcr := create_fresh t p d hd hdir hnone
    obtain ⟨t2, hcl, hch2, hun2⟩ :=
      close_spec t (ppOf p) (baseOf p) ([] ++ data) now d hd
    refine ⟨t2, ?_, ?_, ?_⟩
    · simp only [MemNode.createClose, hcr, MemFile.Write, Bool.false_eq_true,
        if_false, hcl]
    · rw [baseOf_base] at hch2
      have hfe : d.children.filter (fun c => ¬ c.name = baseOf p) = d.children := by
        rw [List.filter_eq_self]
        intro c hc
        simpa using hnone c hc
      rw [hfe]
      exact hch2
    · intro hut
      refine hun2 hut ?_
      rw [baseOf_base]
      intro hmem
      obtain ⟨c, hc, hcname⟩ := List.mem_map.mp hmem
      exact hnone c hc hcname

/-! # Claims -/

/-- C1: the claim states that for every `(src, dst)`, `Move` returns the
not-found sentinel (never diverging or crashing) whenever the source does
not exist, including when the source path's parent directory itself does
not exist.  The code resolves `src := mn.parentNode(srcPath)` without a
nil check and then iterates `src.children`; on a tree with no `/nope`
directory, `Move("/nope/a.txt", "/b.txt")` dereferences the nil pointer —
a runtime panic, not the sentinel error.  This theorem evaluates the
model at that failing input. -/
theorem c1_move_crashes_when_source_parent_missing :
    (Mem [] 0).Move "/nope/a.txt" "/b.txt" = .panics := by decide

/-- C10: with a non-empty subtree root, the caller-supplied path `..`
(and `../secret.txt`) is mapped by `filepath.Join(root, Clean(path))` to
a backend path outside the root — `Subtree` does not confine access: the
wrapper reads (`Open`) and removes (`Remove`) entries of the wrapped
backend that live outside `/d`. -/
theorem c10_subtree_escape :
    let s : SubtreeMem := ⟨Mem [Dir "d" [] 0, File "secret.txt" [42] 0] 0, "/d"⟩
    s.mapPath ".." = "/" ∧
    s.mapPath "../secret.txt" = "/secret.txt" ∧
    hasPrefix (s.mapPath "../secret.txt") s.root = false ∧
    s.Open "../secret.txt" = .ok [42] ∧
    s.Remove "../secret.txt" = .ok (Mem [Dir "d" [] 0] 0) := by decide

/-- C5 counterexample: the claim says the reader returned by `Open` is a
view over a private copy taken at open time, so no in-place mutation of
the live node's content is observable.  `Content()` is
`bytes.NewReader(mn.content)` — reader and node share one backing array:
after writing byte 66 over byte 65 through the node's content slice, an
already-open reader reads 66, not the open-time 65. -/
theorem c5_counterexample :
    readerBytes [[65]] (contentReader ⟨"a.txt", 0⟩) = [65] ∧
    readerBytes (storeWrite [[65]] 0 0 66) (contentReader ⟨"a.txt", 0⟩) = [66] ∧
    ¬ readerBytes (storeWrite [[65]] 0 0 66) (contentReader ⟨"a.txt", 0⟩)
        = readerBytes [[65]] (contentReader ⟨"a.txt", 0⟩) := by decide

/-- C5 (amended): the reader returned by `Open` is a live view over the
same backing array as the node's content slice, not a private copy: it
always reads the store's current bytes, so an in-place mutation of the
live node's content IS observable through an already-open reader. -/
theorem c5_open_reader_shares_backing (σ : Store) (n : MemNodeRef) (i b : Nat)
    (h : i < (liveContent σ n).length) :
    readerBytes σ (contentReader n) = liveContent σ n ∧
    readerBytes (storeWrite σ n.contentRef i b) (contentReader n)
      = (liveContent σ n).set i b := by
  have href : n.contentRef < σ.length := by
    by_contra hc
    push_neg at hc
    have hnone : σ.getD n.contentRef [] = [] := by
      rw [List.getD_eq_getElem?_getD, List.getElem?_eq_none hc]
      rfl
    rw [liveContent, hnone] at h
    simp at h
  constructor
  · rw [readerBytes, contentReader, liveContent]
    simp
  · rw [readerBytes, contentReader, storeWrite, liveContent]
    simp only [List.drop_zero]
    rw [List.getD_eq_getElem?_getD, List.getElem?_set_self (by simpa using href)]
    rfl

theorem c5_open_reader_shares_backing_witness :
    readerBytes [[65]] (contentReader ⟨"a.txt", 0⟩) = liveContent [[65]] ⟨"a.txt", 0⟩ ∧
    readerBytes (storeWrite [[65]] 0 0 66) (contentReader ⟨"a.txt", 0⟩)
      = (liveContent [[65]] ⟨"a.txt", 0⟩).set 0 66 :=
  c5_open_reader_shares_backing [[65]] ⟨"a.txt", 0⟩ 0 66 (by decide)

/-- C3 counterexample: the claim says a failed `Readdir` carries a cause
that is NOT the not-found sentinel, and that `Readdir` fails on a
non-directory.  In the code, the unresolved-path error is
`&os.PathError{"open", path, ErrNoFile}` — exactly the sentinel — and on
a file node `Readdir` succeeds with the (empty) child list. -/
theorem c3_counterexample :
    (Mem [File "root.txt" [9] 0] 0).Readdir "/unreal"
      = .error ⟨"open", "/unreal", .noFile⟩ ∧
    (Mem [File "root.txt" [9] 0] 0).Readdir "/root.txt" = .ok [] := by decide

/-- C3 (amended): `Readdir(p)` fails exactly when `p` does not resolve,
with an `os.PathError` whose operation is `"open"`, whose path is the raw
input, and whose cause IS the not-found sentinel; when `p` resolves it
succeeds with that node's children sorted by name — for a non-directory
node (whose child list is empty) this is the empty listing, not an
error. -/
theorem c3_readdir_behavior (t : MemNode) (p : String) :
    (t.childByPath p = none → t.Readdir p = .error ⟨"open", p, .noFile⟩) ∧
    (∀ n, t.childByPath p = some n →
      t.Readdir p = .ok (sortFileInfos (n.children.map MemNode.fileInfo)) ∧
      infosSorted (sortFileInfos (n.children.map MemNode.fileInfo)) ∧
      (n.children = [] → t.Readdir p = .ok [])) := by
  refine ⟨fun h => ?_, fun n h => ?_⟩
  · simp only [MemNode.Readdir, h]
  · refine ⟨by simp only [MemNode.Readdir, h], sorted_sortFileInfos _, fun hch => ?_⟩
    simp only [MemNode.Readdir, h, hch]
    rfl

theorem c3_readdir_behavior_witness :
    (Mem [File "root.txt" [9] 0] 0).Readdir "/unreal"
      = .error ⟨"open", "/unreal", .noFile⟩ ∧
    (Mem [File "root.txt" [9] 0] 0).Readdir "/root.txt" = .ok [] := by
  refine ⟨(c3_readdir_behavior (Mem [File "root.txt" [9] 0] 0) "/unreal").1 (by decide), ?_⟩
  exact (((c3_readdir_behavior (Mem [File "root.txt" [9] 0] 0) "/root.txt").2
    (File "root.txt" [9] 0) (by decide)).2.2) (by decide)

/-- C8 counterexample: the claim says `Remove(p)` fails with the
not-found sentinel cause when `p`'s parent directory does not exist; the
code returns `fmt.Errorf("No parent directory %s", path)` there — a
generic cause, not the sentinel. -/
theorem c8_counterexample :
    (Mem [] 0).Remove "/nope/x.txt"
      = .error ⟨"remove", "/nope/x.txt",
          .errorf "No parent directory /nope/x.txt"⟩ ∧
    ¬ (Mem [] 0).Remove "/nope/x.txt"
      = .error ⟨"remove", "/nope/x.txt", .noFile⟩ := by decide

/-- C8 (amended): `Remove(p)` fails with the generic
`"No parent directory"` cause (not the sentinel) when the cleaned path's
parent does not resolve or is not a directory; it fails with the
not-found sentinel when the parent is a directory with no child named
`Base(p)`; otherwise it succeeds and the parent's child list afterwards
is the original one with every child named `Base(p)` filtered out (the
removed node owns its subtree, so everything beneath goes with it). -/
theorem c8_remove_behavior (t : MemNode) (p : String) (d : MemNode) :
    (t.child (ppOf p) = none →
        t.Remove p = .error ⟨"remove", cleanedPath p,
          .errorf ("No parent directory " ++ cleanedPath p)⟩) ∧
    (t.child (ppOf p) = some d → d.isDir = false →
        t.Remove p = .error ⟨"remove", cleanedPath p,
          .errorf ("No parent directory " ++ cleanedPath p)⟩) ∧
    (t.child (ppOf p) = some d → d.isDir = true →
        (∀ c ∈ d.children, ¬ c.name = baseOf p) →
        t.Remove p = .error ⟨"remove", cleanedPath p, .noFile⟩) ∧
    (t.child (ppOf p) = some d → d.isDir = true →
        (∃ c ∈ d.children, c.name = baseOf p) →
        ∃ t', t.Remove p = .ok t' ∧ t'.child (ppOf p) = some (removeFilter p d)) := by
  refine ⟨remove_none t p, remove_nondir t p d, remove_nofile t p d, ?_⟩
  intro hd hdir hsome
  obtain ⟨t', hok, hch, _⟩ := remove_ok t p d hd hdir hsome
  exact ⟨t', hok, hch⟩

theorem c8_remove_behavior_witness :
    ((Mem [] 0).Remove "/nope/x.txt"
      = .error ⟨"remove", cleanedPath "/nope/x.txt",
          .errorf ("No parent directory " ++ cleanedPath "/nope/x.txt")⟩) ∧
    ∃ t', (Mem [Dir "d" [File "x" [1] 0] 0] 0).Remove "/d/x" = .ok t' ∧
      t'.child (ppOf "/d/x")
        = some (removeFilter "/d/x" (Dir "d" [File "x" [1] 0] 0)) := by
  refine ⟨(c8_remove_behavior (Mem [] 0) "/nope/x.txt" (Mem [] 0)).1 (by decide), ?_⟩
  exact (c8_remove_behavior (Mem [Dir "d" [File "x" [1] 0] 0] 0) "/d/x"
      (Dir "d" [File "x" [1] 0] 0)).2.2.2 (by decide) (by decide)
      ⟨File "x" [1] 0, by decide, by decide⟩

theorem create_none (t : MemNode) (p : String)
    (h : t.child (ppOf p) = none) :
    t.Create p = .error ⟨"create", cleanedPath p,
      .errorf ("No parent directory " ++ pathDir (cleanedPath p))⟩ := by
  rw [MemNode.Create, MemNode.childByPath, ppOf_eq p, h]
  rfl

theorem create_nondir (t : MemNode) (p : String) (d : MemNode)
    (hd : t.child (ppOf p) = some d) (hdir : d.isDir = false) :
    t.Create p = .error ⟨"create", cleanedPath p,
      .errorf ("No parent directory " ++ pathDir (cleanedPath p))⟩ := by
  rw [MemNode.Create, MemNode.childByPath, ppOf_eq p, hd]
  simp [hdir, cleanedPath]

/-- C2 counterexample: the claim says every operation's error has the
subtree root stripped from its path.  `subtree.Move` (like `subtree.Copy`)
returns the wrapped backend's error unmodified: moving a missing source
under root `/d` surfaces the backend path `/d/missing`, not
`/missing`. -/
theorem c2_counterexample :
    (⟨Mem [Dir "d" [] 0] 0, "/d"⟩ : SubtreeMem).Move "/missing" "/x"
      = .error ⟨"move", "/d/missing", .noFile⟩ ∧
    trimPrefix "/d/missing" "/d" = "/missing" ∧
    ¬ ("/d/missing" = "/missing") := by decide

/-- C2 (amended): for `Open`, `Create`, `Remove`, `Stat`, `Readdir` and
`Mkdir` the wrapper rewrites a backend `os.PathError` by stripping the
root prefix from its path; `Copy` and `Move` return the backend's result
unchanged, so their errors keep the backend's absolute path. -/
theorem c2_subtree_error_paths (s : SubtreeMem) (p q : String)
    (data : List Nat) (now : Nat) :
    (∀ e, s.tree.Open (s.mapPath p) = .error e →
        s.Open p = .error ⟨e.op, trimPrefix e.path s.root, e.err⟩) ∧
    (∀ e, s.tree.Create (s.mapPath p) = .error e →
        s.Create p = .error ⟨e.op, trimPrefix e.path s.root, e.err⟩) ∧
    (∀ e, s.tree.Remove (s.mapPath p) = .error e →
        s.Remove p = .error ⟨e.op, trimPrefix e.path s.root, e.err⟩) ∧
    (∀ e, s.tree.Stat (s.mapPath p) = .error e →
        s.Stat p = .error ⟨e.op, trimPrefix e.path s.root, e.err⟩) ∧
    (∀ e, s.tree.Readdir (s.mapPath p) = .error e →
        s.Readdir p = .error ⟨e.op, trimPrefix e.path s.root, e.err⟩) ∧
    (∀ e, s.tree.Mkdir (s.mapPath p) now = .error e →
        s.Mkdir p now = .error ⟨e.op, trimPrefix e.path s.root, e.err⟩) ∧
    (s.Copy p data now = s.tree.Copy (s.mapPath p) data now) ∧
    (s.Move p q = s.tree.Move (s.mapPath p) (s.mapPath q)) := by
  refine ⟨fun e h => ?_, fun e h => ?_, fun e h => ?_, fun e h => ?_,
    fun e h => ?_, fun e h => ?_, rfl, rfl⟩
  · rw [SubtreeMem.Open, h]; rfl
  · rw [SubtreeMem.Create, h]; rfl
  · rw [SubtreeMem.Remove, h]; rfl
  · rw [SubtreeMem.Stat, h]; rfl
  · rw [SubtreeMem.Readdir, h]; rfl
  · rw [SubtreeMem.Mkdir, h]; rfl

theorem c2_subtree_error_paths_witness :
    (⟨Mem [Dir "d" [] 0] 0, "/d"⟩ : SubtreeMem).Stat "/missing"
      = .error ⟨"stat", trimPrefix "/d/missing" "/d", .noFile⟩ :=
  (c2_subtree_error_paths ⟨Mem [Dir "d" [] 0] 0, "/d"⟩ "/missing" "" [] 0).2.2.2.1
    ⟨"stat", "/d/missing", .noFile⟩ (by decide)

/-- C4 counterexample: the claim says every operation preserves the
pairwise-distinct-names invariant.  `Mkdir` appends a new directory with
no name check: two `Mkdir("/a")` calls produce two children named `a`.
`Move` appends the detached node to the destination parent with no
collision check: moving `/d1/a` to `/d2/a` when `/d2/a` exists gives
`d2` two children named `a`.  Both start from trees satisfying the
invariant. -/
theorem c4_counterexample :
    (Mem [] 0).uniqueNames = true ∧
    (Mem [] 0).Mkdir "/a" 1 = .ok (Mem [Dir "a" [] 1] 0) ∧
    (Mem [Dir "a" [] 1] 0).Mkdir "/a" 2 = .ok (Mem [Dir "a" [] 1, Dir "a" [] 2] 0) ∧
    (Mem [Dir "a" [] 1, Dir "a" [] 2] 0).uniqueNames = false ∧
    (Mem [Dir "d1" [File "a" [1] 3] 0, Dir "d2" [File "a" [2] 4] 0] 0).uniqueNames = true ∧
    (Mem [Dir "d1" [File "a" [1] 3] 0, Dir "d2" [File "a" [2] 4] 0] 0).Move "/d1/a" "/d2/a"
      = .ok (Mem [Dir "d1" [] 0, Dir "d2" [File "a" [2] 4, File "a" [1] 3] 0] 0) ∧
    (Mem [Dir "d1" [] 0, Dir "d2" [File "a" [2] 4, File "a" [1] 3] 0] 0).uniqueNames
      = false := by decide

/-- C4 (amended): the unique-names invariant is preserved by `Remove`,
by the `Create`-then-`Close` composite, and by `Copy` (which is exactly
that composite); it is NOT preserved by `Mkdir` or `Move`, which append
without checking for an existing child of the same name (see the
counterexample). -/
theorem c4_unique_names_preservation (t : MemNode) (p : String)
    (data : List Nat) (now : Nat) (hu : t.uniqueNames = true) :
    (∀ t', t.Remove p = .ok t' → t'.uniqueNames = true) ∧
    (∀ t', t.createClose p data now = .ok t' → t'.uniqueNames = true) ∧
    (∀ t', t.Copy p data now = .ok t' → t'.uniqueNames = true) := by
  have hcc : ∀ t', t.createClose p data now = .ok t' → t'.uniqueNames = true := by
    intro t' h
    match hc : t.child (ppOf p) with
    | none =>
      rw [MemNode.createClose, create_none t p hc] at h
      simp at h
    | some d =>
      by_cases hdir : d.isDir = true
      · obtain ⟨t2, hcc, _, hun⟩ := createClose_spec t p data now d hc hdir
        rw [hcc] at h
        obtain rfl : t2 = t' := by simpa using h
        exact hun hu
      · rw [MemNode.createClose,
          create_nondir t p d hc (by simpa using hdir)] at h
        simp at h
  refine ⟨?_, hcc, hcc⟩
  intro t' h
  match hc : t.child (ppOf p) with
  | none =>
    rw [remove_none t p hc] at h
    simp at h
  | some d =>
    by_cases hdir : d.isDir = true
    · by_cases hex : ∃ c ∈ d.children, c.name = baseOf p
      · obtain ⟨t'', hok, _, hun⟩ := remove_ok t p d hc hdir hex
        rw [hok] at h
        obtain rfl : t'' = t' := by simpa using h
        exact hun hu
      · rw [remove_nofile t p d hc hdir (fun c hcm hn => hex ⟨c, hcm, hn⟩)] at h
        simp at h
    · rw [remove_nondir t p d hc (by simpa using hdir)] at h
      simp at h

theorem c4_unique_names_preservation_witness :
    (Mem [] 0).uniqueNames = true :=
  ((c4_unique_names_preservation (Mem [File "a" [1] 3] 0) "/a" [] 0 (by decide)).1)
    (Mem [] 0) (by decide)

/-- C6 counterexample: the claim says that between `Create` and `Close`
the tree's entry at `p` is exactly what it was before the `Create` call.
`Create` removes the existing child immediately (the removal happens at
create time, not close time): right after `Create("/a.txt")` the old
entry is gone while the handle is still open. -/
theorem c6_counterexample :
    (Mem [File "a.txt" [1] 0] 0).childByPath "/a.txt" = some (File "a.txt" [1] 0) ∧
    (Mem [File "a.txt" [1] 0] 0).Create "/a.txt"
      = .ok (Mem [] 0, ⟨false, [], [""], "a.txt"⟩) ∧
    (Mem [] 0).childByPath "/a.txt" = none := by decide

/-- C6 (amended): a `Create` handle is not visible in the tree until
closed, but any existing child of the same name is removed at `Create`
time, not at `Close` time: at a fresh path the tree is returned unchanged
by `Create`, while after any successful `Create` the parent directory has
no child named `Base(p)` until `Close` appends the new node; writing
`"Big Lots"` then, via a second `Create`/`Close`, `"Jamesway"` to the
same path makes a subsequent `Open` yield exactly `"Jamesway"`. -/
theorem c6_create_close_visibility (t : MemNode) (p : String) (d : MemNode)
    (hd : t.child (ppOf p) = some d) (hdir : d.isDir = true) :
    ((∀ c ∈ d.children, ¬ c.name = baseOf p) →
        t.Create p = .ok (t, ⟨false, [], ppOf p, baseOf p⟩)) ∧
    (∀ t1 mf, t.Create p = .ok (t1, mf) →
        ∃ d1, t1.child (ppOf p) = some d1 ∧ ∀ c ∈ d1.children, ¬ c.name = baseOf p) ∧
    (∀ data now, ∃ t2, t.createClose p data now = .ok t2 ∧
        t2.child (ppOf p) = some (d.withChildren
          ((d.children.filter (fun c => ¬ c.name = baseOf p))
            ++ [MemNode.mk (baseOf p) false now ([] ++ data) []]))) ∧
    ((Mem [] 5).createClose "/root2.txt" [66, 105, 103, 32, 76, 111, 116, 115] 6
        = .ok (MemNode.mk "" true 5 []
            [MemNode.mk "root2.txt" false 6 [66, 105, 103, 32, 76, 111, 116, 115] []]) ∧
      (MemNode.mk "" true 5 []
          [MemNode.mk "root2.txt" false 6 [66, 105, 103, 32, 76, 111, 116, 115] []]).createClose
          "/root2.txt" [74, 97, 109, 101, 115, 119, 97, 121] 7
        = .ok (MemNode.mk "" true 5 []
            [MemNode.mk "root2.txt" false 7 [74, 97, 109, 101, 115, 119, 97, 121] []]) ∧
      (MemNode.mk "" true 5 []
          [MemNode.mk "root2.txt" false 7 [74, 97, 109, 101, 115, 119, 97, 121] []]).Open
          "/root2.txt"
        = .ok [74, 97, 109, 101, 115, 119, 97, 121]) := by
  refine ⟨create_fresh t p d hd hdir, ?_, ?_, by decide⟩
  · intro t1 mf h
    by_cases hex : ∃ c ∈ d.children, c.name = baseOf p
    · obtain ⟨t1', hcr, hch, _⟩ := create_existing t p d hd hdir hex
      rw [hcr] at h
      obtain ⟨rfl, rfl⟩ : t1' = t1 ∧ (⟨false, [], ppOf p, baseOf p⟩ : MemFile) = mf := by
        simpa using h
      refine ⟨removeFilter p d, hch, ?_⟩
      intro c hc
      rw [removeFilter, children_withChildren] at hc
      have := List.of_mem_filter hc
      simpa using this
    · have hnone : ∀ c ∈ d.children, ¬ c.name = baseOf p :=
        fun c hc hn => hex ⟨c, hc, hn⟩
      rw [create_fresh t p d hd hdir hnone] at h
      obtain ⟨rfl, rfl⟩ : t = t1 ∧ (⟨false, [], ppOf p, baseOf p⟩ : MemFile) = mf := by
        simpa using h
      exact ⟨d, hd, hnone⟩
  · intro data now
    obtain ⟨t2, hcc, hch, _⟩ := createClose_spec t p data now d hd hdir
    exact ⟨t2, hcc, hch⟩

theorem c6_create_close_visibility_witness :
    (Mem [] 5).Create "/new.txt" = .ok (Mem [] 5, ⟨false, [], [""], "new.txt"⟩) := by
  have h := (c6_create_close_visibility (Mem [] 5) "/new.txt" (Mem [] 5)
      (by decide) (by decide)).1 (by decide)
  exact h

/-- C7: for the backends implemented in this repository, every successful
`Readdir` yields entries sorted ascending by name under the Go string
order: the memory backend sorts its child infos, the object-store backend
aggregates all listing pages and sorts the combined entries, and the
subtree wrapper passes the backend's sorted listing through.  The memory
listing is moreover a permutation of the directory's child infos
(nothing is dropped or duplicated by sorting). -/
theorem c7_readdir_sorted :
    (∀ (t : MemNode) (p : String) (l : List FileInfo),
        t.Readdir p = .ok l → infosSorted l) ∧
    (∀ (pages : List S3Page) (p : String) (l : List FileInfo),
        s3Readdir pages p = .ok l → infosSorted l) ∧
    (∀ (s : SubtreeMem) (p : String) (l : List FileInfo),
        s.Readdir p = .ok l → infosSorted l) ∧
    (∀ (t : MemNode) (p : String) (n : MemNode) (l : List FileInfo),
        t.childByPath p = some n → t.Readdir p = .ok l →
          l.Perm (n.children.map MemNode.fileInfo)) := by
  have hmem : ∀ (t : MemNode) (p : String) (l : List FileInfo),
      t.Readdir p = .ok l → infosSorted l := by
    intro t p l h
    rw [MemNode.Readdir] at h
    match hc : t.childByPath p with
    | none =>
      rw [hc] at h
      simp at h
    | some n =>
      rw [hc] at h
      obtain rfl : sortFileInfos (n.children.map MemNode.fileInfo) = l := by
        simpa using h
      exact sorted_sortFileInfos _
  refine ⟨hmem, ?_, ?_, ?_⟩
  · intro pages p l h
    rw [s3Readdir] at h
    split at h
    · simp at h
    · obtain rfl : sortFileInfos _ = l := by simpa using h
      exact sorted_sortFileInfos _
  · intro s p l h
    rw [SubtreeMem.Readdir] at h
    match hc : s.tree.Readdir (s.mapPath p) with
    | .error e =>
      rw [hc] at h
      simp [SubtreeMem.mapExcept] at h
    | .ok l0 =>
      rw [hc] at h
      obtain rfl : l0 = l := by simpa [SubtreeMem.mapExcept] using h
      exact hmem _ _ _ hc
  · intro t p n l hc h
    simp only [MemNode.Readdir, hc] at h
    obtain rfl : sortFileInfos (n.children.map MemNode.fileInfo) = l := by
      simpa using h
    exact perm_sortFileInfos _

theorem c7_readdir_sorted_witness :
    infosSorted [(⟨"a.txt", 0, false, 0⟩ : FileInfo),
      ⟨"b.txt", 0, false, 0⟩, ⟨"c.txt", 0, false, 0⟩] ∧
    infosSorted [(⟨"a", 0, true, 0⟩ : FileInfo), ⟨"b.txt", 3, false, 7⟩] := by
  constructor
  · exact c7_readdir_sorted.1
      (Mem [File "b.txt" [] 0, File "a.txt" [] 0, File "c.txt" [] 0] 0) "/"
      [⟨"a.txt", 0, false, 0⟩, ⟨"b.txt", 0, false, 0⟩, ⟨"c.txt", 0, false, 0⟩]
      (by decide)
  · exact c7_readdir_sorted.2.1 [⟨["d/a/"], [⟨"d/b.txt", 3, 7⟩]⟩] "/d"
      [⟨"a", 0, true, 0⟩, ⟨"b.txt", 3, false, 7⟩] (by decide)

/-- C9: `S3FileSystem.Stat` classifies a path from one delimiter listing
whose pages are aggregated in full: a common-prefix group equal to
`key + "/"` (checked first) is reported as a directory; failing that, an
object whose key is exactly `key` is reported as a file; when neither
exists after all pages, the sentinel not-found error is returned. -/
theorem c9_s3_stat_classification (pages : List S3Page) (p : String) :
    ((keyPath p ++ "/") ∈ pages.flatMap S3Page.commonPrefixes →
      ∃ fi, s3Stat pages p = .ok fi ∧ fi.isDir = true) ∧
    ((keyPath p ++ "/") ∉ pages.flatMap S3Page.commonPrefixes →
      (∃ o ∈ pages.flatMap S3Page.contents, o.key = keyPath p) →
      ∃ fi, s3Stat pages p = .ok fi ∧ fi.isDir = false
        ∧ fi.name = pathBase (keyPath p)) ∧
    ((keyPath p ++ "/") ∉ pages.flatMap S3Page.commonPrefixes →
      (∀ o ∈ pages.flatMap S3Page.contents, ¬ o.key = keyPath p) →
      s3Stat pages p = .error ⟨"stat", trimSuffix ("/" ++ keyPath p) "/", .noFile⟩) := by
  refine ⟨fun hmem => ?_, fun hnot hobj => ?_, fun hnot hnobj => ?_⟩
  · rw [s3Stat]
    match hf : (pages.flatMap S3Page.commonPrefixes).find?
        (fun q => q = keyPath p ++ "/") with
    | some q => exact ⟨⟨pathBase q, 0, true, 0⟩, rfl, rfl⟩
    | none =>
      exfalso
      have := List.find?_eq_none.mp hf (keyPath p ++ "/") hmem
      simp at this
  · have hf : (pages.flatMap S3Page.commonPrefixes).find?
        (fun q => q = keyPath p ++ "/") = none := by
      rw [List.find?_eq_none]
      intro q hq
      simp only [decide_eq_true_eq]
      intro hqe
      exact hnot (hqe ▸ hq)
    obtain ⟨o, ho, hokey⟩ := hobj
    have hsome : ((pages.flatMap S3Page.contents).find?
        (fun o => o.key = keyPath p)).isSome = true := by
      rw [List.find?_isSome]
      exact ⟨o, ho, by simpa using hokey⟩
    obtain ⟨obj, hg⟩ := Option.isSome_iff_exists.mp hsome
    have hk : obj.key = keyPath p := by
      have := List.find?_some hg
      simpa using this
    rw [s3Stat, hf, hg]
    exact ⟨⟨pathBase obj.key, obj.size, false, obj.lastModified⟩, rfl, rfl, by rw [hk]⟩
  · have hf : (pages.flatMap S3Page.commonPrefixes).find?
        (fun q => q = keyPath p ++ "/") = none := by
      rw [List.find?_eq_none]
      intro q hq
      simp only [decide_eq_true_eq]
      intro hqe
      exact hnot (hqe ▸ hq)
    have hg : (pages.flatMap S3Page.contents).find? (fun o => o.key = keyPath p)
        = none := by
      rw [List.find?_eq_none]
      intro o ho
      simpa using hnobj o ho
    rw [s3Stat, hf, hg]
    rfl

theorem c9_s3_stat_classification_witness :
    (∃ fi, s3Stat [⟨["a/"], []⟩] "/a" = .ok fi ∧ fi.isDir = true) ∧
    (∃ fi, s3Stat [⟨[], [⟨"b", 3, 7⟩]⟩] "/b" = .ok fi ∧ fi.isDir = false
        ∧ fi.name = pathBase (keyPath "/b")) ∧
    (s3Stat [] "/c" = .error ⟨"stat", trimSuffix ("/" ++ keyPath "/c") "/", .noFile⟩) :=
  ⟨(c9_s3_stat_classification [⟨["a/"], []⟩] "/a").1 (by decide),
    (c9_s3_stat_classification [⟨[], [⟨"b", 3, 7⟩]⟩] "/b").2.1 (by decide)
      ⟨⟨"b", 3, 7⟩, by decide, by decide⟩,
    (c9_s3_stat_classification [] "/c").2.2 (by decide) (by decide)⟩
